import Mathlib

/-!
Verification of the sparsity-mask allocation engine
(`nni/algorithms/compression/v2/pytorch/pruning/tools/sparsity_allocator.py`).

Importance metrics are modelled as lists of integers (the claims only involve
order comparisons, minima and subtraction by one, so integer-valued metrics
embed the numeric tensors faithfully).  Sparsity rates are exact non-negative
rationals represented as a numerator/denominator pair of naturals, so that
`int(rate * numel)` becomes the exact floor `num * numel / den` and every
definition evaluates inside the kernel.

`torch.topk(x, k, largest=False)[0]` is the list of the `k` smallest entries,
and `.max()` of an empty selection — which raises a `RuntimeError` in torch —
is modelled by `Option.none`, as is `torch.topk` with `k` larger than the
number of elements and every other tensor-runtime error.
-/

set_option maxRecDepth 100000

namespace SparsityAlloc

/-- An exact non-negative rational rate `num / den` (e.g. `total_sparsity`,
`max_sparsity_per_layer`). -/
structure Frac where
  num : ℕ
  den : ℕ
deriving DecidableEq, Repr

/-- `s` viewed against `1`: `s ≤ 1` means `num ≤ den`. -/
def Frac.leOne (s : Frac) : Prop := s.num ≤ s.den

instance : DecidablePred Frac.leOne := fun s => by
  unfold Frac.leOne
  infer_instance

/-- Ceiling of `x / y` on naturals (`math.ceil` of the exact quotient). -/
def ceilDivNat (x y : ℕ) : ℕ := (x + y - 1) / y

/-- `int(s * n)` for a non-negative rate: exact floor of `s * n`. -/
def pruneNum (s : Frac) (n : ℕ) : ℕ := s.num * n / s.den

/-- Ascending sort of a metric tensor viewed as a flat list. -/
def sortAsc (xs : List ℤ) : List ℤ := List.insertionSort (· ≤ ·) xs

/-- `torch.topk(xs, k, largest=False)[0]`: the `k` smallest entries. -/
def topkSmall (xs : List ℤ) (k : ℕ) : List ℤ := (sortAsc xs).take k

/-- `torch.topk(xs, k, largest=False)[0].max()`: the largest among the `k`
smallest entries; `none` models the `RuntimeError` raised when `k` exceeds the
element count or when the reduction is over an empty selection (`k = 0`). -/
def topkSmallMax (xs : List ℤ) (k : ℕ) : Option ℤ :=
  if k ≤ xs.length then (topkSmall xs k).max? else none

/-- `torch.gt(metric, t).type_as(metric)`: 1 where the metric is strictly
greater than the threshold (keep), 0 otherwise (prune). -/
def gtMask (xs : List ℤ) (t : ℤ) : List ℤ :=
  xs.map (fun m => if t < m then 1 else 0)

/-- Number of pruned positions of a mask. -/
def countZeros (mask : List ℤ) : ℕ := mask.countP (fun x => decide (x = 0))

/-- `(mask != 0).type_as(mask)` as in `BlockSparsityAllocator._compress_mask`
specialised to `dim is None` and no block size (no reduction, no pooling). -/
def binarize (xs : List ℤ) : List ℤ := xs.map (fun m => if m = 0 then 0 else 1)

/-- The threshold selection of `NormalSparsityAllocator.generate_sparsity`
(lines 33-37): sentinel `metric.min() - 1` when the prune count is zero,
otherwise the largest of the `prune_num` smallest entries. -/
def normalThreshold (metric : List ℤ) (k : ℕ) : Option ℤ :=
  if k = 0 then (metric.min?).map (fun m => m - 1) else topkSmallMax metric k

/-- Core of `NormalSparsityAllocator.generate_sparsity` /
`BlockSparsityAllocator.generate_sparsity` for one layer (lines 33-38),
element-granularity case (the `_expand_mask` of the element-wise case returns
the mask unchanged): compute the prune count, pick the threshold, keep
strictly-greater entries. -/
def normalLayerMask (metric : List ℤ) (s : Frac) : Option (List ℤ) :=
  (normalThreshold metric (pruneNum s metric.length)).map (gtMask metric)

/-- One full layer call of `NormalSparsityAllocator.generate_sparsity`
(lines 30-41) including continuous-mask mode.  The result pairs the produced
weight mask with the metric tensor as it is left in the supplied `metrics`
mapping after the call: `metric *= self._compress_mask(wrapper.weight_mask)`
is an in-place multiplication on the stored tensor. -/
def normalLayerCall (continuous : Bool) (prevMask metric : List ℤ) (s : Frac) :
    Option (List ℤ × List ℤ) :=
  let metric1 := if continuous then List.zipWith (· * ·) metric (binarize prevMask) else metric
  (normalLayerMask metric1 s).map
    (fun mask => (if continuous then List.zipWith (· * ·) mask prevMask else mask, metric1))

section BasicLemmas

theorem sortAsc_perm (xs : List ℤ) : (sortAsc xs).Perm xs :=
  List.perm_insertionSort _ xs

theorem sortAsc_sorted (xs : List ℤ) : (sortAsc xs).Sorted (· ≤ ·) :=
  List.sorted_insertionSort _ xs

theorem sortAsc_length (xs : List ℤ) : (sortAsc xs).length = xs.length :=
  (sortAsc_perm xs).length_eq

theorem int_max?_spec {xs : List ℤ} {a : ℤ} (h : xs.max? = some a) :
    a ∈ xs ∧ ∀ b ∈ xs, b ≤ a := by
  haveI : Std.Antisymm ((· : ℤ) ≤ ·) := ⟨@fun _ _ h1 h2 => le_antisymm h1 h2⟩
  exact (List.max?_eq_some_iff (fun a => le_refl a) (fun a b => max_choice a b)
    (fun _ _ _ => max_le_iff)).mp h

theorem int_min?_spec {xs : List ℤ} {a : ℤ} (h : xs.min? = some a) :
    a ∈ xs ∧ ∀ b ∈ xs, a ≤ b := by
  haveI : Std.Antisymm ((· : ℤ) ≤ ·) := ⟨@fun _ _ h1 h2 => le_antisymm h1 h2⟩
  have := (List.min?_eq_some_iff (fun a => le_refl a) (fun a b => min_choice a b)
    (fun _ _ _ => le_min_iff)).mp h
  exact ⟨this.1, fun b hb => this.2 b hb⟩

theorem int_max?_isSome {xs : List ℤ} (h : xs ≠ []) : ∃ a, xs.max? = some a := by
  cases hx : xs.max? with
  | none => exact absurd (List.max?_eq_none_iff.mp hx) h
  | some a => exact ⟨a, rfl⟩

theorem int_min?_isSome {xs : List ℤ} (h : xs ≠ []) : ∃ a, xs.min? = some a := by
  cases hx : xs.min? with
  | none => exact absurd (List.min?_eq_none_iff.mp hx) h
  | some a => exact ⟨a, rfl⟩

theorem countZeros_gtMask (xs : List ℤ) (t : ℤ) :
    countZeros (gtMask xs t) = xs.countP (fun x => decide (x ≤ t)) := by
  unfold countZeros gtMask
  rw [List.countP_map]
  apply List.countP_congr
  intro x _
  by_cases h : t < x
  · simp [Function.comp, h, not_le.mpr h]
  · simp [Function.comp, h, not_lt.mp h]

theorem countP_sortAsc (xs : List ℤ) (p : ℤ → Bool) :
    (sortAsc xs).countP p = xs.countP p :=
  (sortAsc_perm xs).countP_eq p

/-- `x ≤ ⌈x/y⌉ * y` for positive `y`. -/
theorem le_ceilDivNat_mul {x y : ℕ} (hy : 0 < y) : x ≤ y * ceilDivNat x y := by
  unfold ceilDivNat
  have h1 := Nat.div_add_mod (x + y - 1) y
  have h2 := Nat.mod_lt (x + y - 1) hy
  omega

/-- `⌈x/y⌉ * y < x + y` for positive `y`: the ceiling is the least one. -/
theorem ceilDivNat_mul_lt {x y : ℕ} (hy : 0 < y) : y * ceilDivNat x y < x + y := by
  unfold ceilDivNat
  have h1 := Nat.div_add_mod (x + y - 1) y
  have h2 := Nat.mod_lt (x + y - 1) hy
  omega

theorem pruneNum_le {s : Frac} (hle : s.leOne) (n : ℕ) : pruneNum s n ≤ n := by
  unfold pruneNum
  calc s.num * n / s.den ≤ s.den * n / s.den :=
        Nat.div_le_div_right (Nat.mul_le_mul_right n hle)
    _ ≤ n := by
        rcases Nat.eq_zero_or_pos s.den with h | h
        · simp [h]
        · rw [Nat.mul_div_cancel_left n h]

end BasicLemmas

section CountingLemmas

theorem topkSmallMax_le_length {xs : List ℤ} {k : ℕ} {t : ℤ}
    (h : topkSmallMax xs k = some t) : k ≤ xs.length := by
  unfold topkSmallMax at h
  by_cases hle : k ≤ xs.length
  · exact hle
  · rw [if_neg hle] at h
    exact absurd h (by simp)

theorem topkSmallMax_bound {xs : List ℤ} {k : ℕ} {t : ℤ}
    (h : topkSmallMax xs k = some t) :
    t ∈ (sortAsc xs).take k ∧ ∀ b ∈ (sortAsc xs).take k, b ≤ t := by
  unfold topkSmallMax at h
  rw [if_pos (topkSmallMax_le_length h)] at h
  exact int_max?_spec h

theorem sorted_take_le_drop (xs : List ℤ) (k : ℕ) :
    ∀ x ∈ (sortAsc xs).take k, ∀ y ∈ (sortAsc xs).drop k, x ≤ y := by
  have h := sortAsc_sorted xs
  rw [← List.take_append_drop k (sortAsc xs)] at h
  exact (List.pairwise_append.mp h).2.2

theorem length_take_sortAsc {xs : List ℤ} {k : ℕ} (hk : k ≤ xs.length) :
    ((sortAsc xs).take k).length = k := by
  rw [List.length_take, sortAsc_length]
  exact Nat.min_eq_left hk

theorem countP_take_le_thr {xs : List ℤ} {k : ℕ} {t : ℤ} (hk : k ≤ xs.length)
    (hb : ∀ b ∈ (sortAsc xs).take k, b ≤ t) :
    ((sortAsc xs).take k).countP (fun x => decide (x ≤ t)) = k := by
  have h := List.countP_eq_length (p := fun x => decide (x ≤ t))
    (l := (sortAsc xs).take k)
  rw [h.mpr (fun a ha => by simpa using hb a ha)]
  exact length_take_sortAsc hk

/-- At least `k` elements fall at or below the largest of the `k` smallest. -/
theorem countP_le_thr_ge {xs : List ℤ} {k : ℕ} {t : ℤ}
    (ht : topkSmallMax xs k = some t) :
    k ≤ xs.countP (fun x => decide (x ≤ t)) := by
  have hk := topkSmallMax_le_length ht
  have hb := (topkSmallMax_bound ht).2
  rw [← countP_sortAsc, ← List.take_append_drop k (sortAsc xs), List.countP_append]
  have h1 := countP_take_le_thr hk hb
  omega

/-- With exactly one occurrence of the boundary value, exactly `k` elements
fall at or below the threshold. -/
theorem countP_le_thr_eq {xs : List ℤ} {k : ℕ} {t : ℤ}
    (ht : topkSmallMax xs k = some t)
    (hone : xs.countP (fun x => decide (x = t)) = 1) :
    xs.countP (fun x => decide (x ≤ t)) = k := by
  have hk := topkSmallMax_le_length ht
  have hmem := (topkSmallMax_bound ht).1
  have hb := (topkSmallMax_bound ht).2
  have hdrop := sorted_take_le_drop xs k
  rw [← countP_sortAsc, ← List.take_append_drop k (sortAsc xs), List.countP_append]
  have h1 := countP_take_le_thr hk hb
  -- the boundary value occurs once, and it occurs in the prefix
  rw [← countP_sortAsc, ← List.take_append_drop k (sortAsc xs), List.countP_append] at hone
  have hu1 : 0 < ((sortAsc xs).take k).countP (fun x => decide (x = t)) :=
    List.countP_pos_iff.mpr ⟨t, hmem, by simp⟩
  have hv0 : ((sortAsc xs).drop k).countP (fun x => decide (x = t)) = 0 := by omega
  have h2 : ((sortAsc xs).drop k).countP (fun x => decide (x ≤ t)) = 0 := by
    rw [List.countP_eq_zero] at hv0 ⊢
    intro y hy hyt
    have h1y : t ≤ y := hdrop t hmem y hy
    have : y = t := le_antisymm (by simpa using hyt) h1y
    exact hv0 y hy (by simp [this])
  omega

/-- Pairwise-distinct lists have each value at most once. -/
theorem countP_eq_one_of_nodup {xs : List ℤ} {t : ℤ} (hnd : xs.Nodup)
    (hmem : t ∈ xs) : xs.countP (fun x => decide (x = t)) = 1 := by
  have h : xs.countP (fun x => decide (x = t)) = xs.count t := by
    unfold List.count
    apply List.countP_congr
    intro x _
    constructor
    · intro hx
      simpa using of_decide_eq_true hx
    · intro hx
      simp [eq_of_beq hx]
  rw [h]
  exact List.count_eq_one_of_mem hnd hmem

theorem topkSmallMax_mem {xs : List ℤ} {k : ℕ} {t : ℤ}
    (ht : topkSmallMax xs k = some t) : t ∈ xs := by
  have := (topkSmallMax_bound ht).1
  exact (sortAsc_perm xs).mem_iff.mp (List.mem_of_mem_take this)

end CountingLemmas

/-- **C1.** Normal/Block layer-local allocation: with a non-empty metric and
`k = pruneNum total_sparsity numel > 0`, the call succeeds with threshold `t`
equal to the largest of the `k` smallest metric entries, the mask keeps an
element iff its metric is strictly greater than `t`, at least `k` elements are
pruned, and exactly `k` when the boundary value is untied. -/
theorem normal_threshold_spec (metric : List ℤ) (s : Frac) (mask : List ℤ)
    (hne : metric ≠ []) (hk : 0 < pruneNum s metric.length)
    (hmask : normalLayerMask metric s = some mask) :
    ∃ t, topkSmallMax metric (pruneNum s metric.length) = some t ∧
      mask = gtMask metric t ∧
      pruneNum s metric.length ≤ countZeros mask ∧
      (metric.countP (fun x => decide (x = t)) = 1 →
        countZeros mask = pruneNum s metric.length) := by
  unfold normalLayerMask normalThreshold at hmask
  rw [if_neg (Nat.pos_iff_ne_zero.mp hk)] at hmask
  rcases Option.map_eq_some'.mp hmask with ⟨t, ht, hmaskeq⟩
  refine ⟨t, ht, hmaskeq.symm, ?_, ?_⟩
  · rw [hmaskeq.symm, countZeros_gtMask]
    exact countP_le_thr_ge ht
  · intro hone
    rw [hmaskeq.symm, countZeros_gtMask]
    exact countP_le_thr_eq ht hone

/-- The spec's concrete scenario for C1: metric values 0..15. -/
def c1Metric : List ℤ := List.map Int.ofNat (List.range 16)

/-- Witness for C1, the spec's concrete scenario: 16 elements with metric
values 0..15 and `total_sparsity = 1/2` prune exactly the 8 smallest values;
the mask is eight 0s followed by eight 1s and sums to 8. -/
theorem normal_threshold_spec_witness :
    (∃ t, topkSmallMax c1Metric (pruneNum ⟨1, 2⟩ c1Metric.length) = some t ∧
      List.replicate 8 (0 : ℤ) ++ List.replicate 8 1 = gtMask c1Metric t ∧
      pruneNum ⟨1, 2⟩ c1Metric.length ≤
        countZeros (List.replicate 8 (0 : ℤ) ++ List.replicate 8 1) ∧
      (c1Metric.countP (fun x => decide (x = t)) = 1 →
        countZeros (List.replicate 8 (0 : ℤ) ++ List.replicate 8 1) =
          pruneNum ⟨1, 2⟩ c1Metric.length)) ∧
    normalLayerMask c1Metric ⟨1, 2⟩ =
      some (List.replicate 8 0 ++ List.replicate 8 1) ∧
    countZeros (List.replicate 8 (0 : ℤ) ++ List.replicate 8 1) = 8 ∧
    (List.replicate 8 (0 : ℤ) ++ List.replicate 8 1).sum = 8 :=
  ⟨normal_threshold_spec _ _ _ (by decide) (by decide) (by decide),
   by decide, by decide, by decide⟩

section ElementAccess

theorem zipWith_mul_getD_zero {xs ys : List ℤ} {i : ℕ}
    (hx : i < xs.length) (hy : i < ys.length) (h0 : ys.getD i 1 = 0) :
    (List.zipWith (· * ·) xs ys).getD i 1 = 0 := by
  have hlen : i < (List.zipWith (· * ·) xs ys).length := by
    rw [List.length_zipWith]; omega
  rw [List.getD_eq_getElem _ _ hlen, List.getElem_zipWith]
  rw [List.getD_eq_getElem _ _ hy] at h0
  rw [h0, mul_zero]

theorem binarize_length (ys : List ℤ) : (binarize ys).length = ys.length := by
  simp [binarize]

theorem binarize_getD_zero {ys : List ℤ} {i : ℕ} (hi : i < ys.length)
    (h : ys.getD i 1 = 0) : (binarize ys).getD i 1 = 0 := by
  have hib : i < (binarize ys).length := by rw [binarize_length]; exact hi
  rw [List.getD_eq_getElem _ _ hib]
  rw [List.getD_eq_getElem _ _ hi] at h
  simp only [binarize, List.getElem_map, h]
  simp

theorem gtMask_length (xs : List ℤ) (t : ℤ) : (gtMask xs t).length = xs.length := by
  simp [gtMask]

end ElementAccess

/-- **C10 counterexample.** Under continuous-mask mode the Normal/Block layer
loop runs `metric *= self._compress_mask(wrapper.weight_mask)`, an in-place
multiplication on the tensor stored in the supplied `metrics` mapping: with
previous mask `[0,1]` and stored metric `[5,6]`, after the call the stored
metric is `[0,6]`, not the supplied `[5,6]`. -/
theorem normal_inplace_mutation_cex :
    normalLayerCall true [0, 1] [5, 6] ⟨1, 2⟩ = some ([0, 1], [0, 6]) ∧
    ([0, 6] : List ℤ) ≠ [5, 6] := by decide

/-- **C10 (amended).** With continuous-mask mode off, the Normal/Block layer
call leaves the supplied metric tensor unchanged and its mask is the pure
function `normalLayerMask` of the inputs (the allocation itself is a
deterministic function of metrics, configs and previous masks in every mode;
only the in-place pre-multiplication of continuous-mask mode mutates the
supplied metrics). -/
theorem normal_no_mutation_without_continuous (prevMask metric : List ℤ)
    (s : Frac) (mask metricAfter : List ℤ)
    (hcall : normalLayerCall false prevMask metric s = some (mask, metricAfter)) :
    metricAfter = metric ∧ normalLayerMask metric s = some mask := by
  unfold normalLayerCall at hcall
  simp only [Bool.false_eq_true, if_neg, ite_false] at hcall
  rcases Option.map_eq_some'.mp hcall with ⟨m, hm, heq⟩
  refine ⟨(congrArg Prod.snd heq).symm, ?_⟩
  rw [hm]
  exact congrArg some (congrArg Prod.fst heq)

/-- Witness for the amended C10 at a concrete input. -/
theorem normal_no_mutation_without_continuous_witness :
    ([5, 6] : List ℤ) = [5, 6] ∧ normalLayerMask [5, 6] ⟨1, 2⟩ = some [0, 1] :=
  normal_no_mutation_without_continuous [1, 1] [5, 6] ⟨1, 2⟩ [0, 1] [5, 6] (by decide)

/-! ## Global allocator (`GlobalSparsityAllocator`, lines 167-228)

Modelled at element granularity (`metric.numel() == weight.numel()`, so the
block-expansion ratio `expend_times` is 1 and no candidate replication
happens) and with continuous-mask mode off.  A group is a list of layers;
`maxSpl` is the resolved `max_sparsity_per_layer.get(name, 1)` (the layers
are identified by position, matching the single iteration order of the
source's insertion-ordered dicts). -/

/-- One layer of a global group: its metric together with its resolved
per-layer sparsity cap. -/
structure GLayer where
  metric : List ℤ
  maxSpl : Frac
deriving DecidableEq, Repr

def defaultGLayer : GLayer := ⟨[], ⟨1, 1⟩⟩

/-- `retention_numel = math.ceil(retention_ratio * layer_weight_num)` with
`retention_ratio = 1 - max_sparsity_per_layer.get(name, 1)` (lines 209-210). -/
def retentionNumel (l : GLayer) : ℕ :=
  ceilDivNat ((l.maxSpl.den - l.maxSpl.num) * l.metric.length) l.maxSpl.den

/-- `removed_metric_num = math.ceil(retention_numel / (weight_mask.numel() /
metric.numel()))` (line 211); at element granularity the ratio is 1. -/
def removedMetricNum (l : GLayer) : ℕ := ceilDivNat (retentionNumel l) 1

theorem removedMetricNum_eq (l : GLayer) : removedMetricNum l = retentionNumel l := by
  simp [removedMetricNum, ceilDivNat]

/-- `stay_metric_num = metric.numel() - removed_metric_num` (line 212). -/
def stayMetricNum (l : GLayer) : ℤ :=
  (l.metric.length : ℤ) - (removedMetricNum l : ℤ)

/-- Lines 213-221 for one layer: the protected branch returns the sentinel
`metric.min() - 1` and contributes nothing, otherwise the `stay_metric_num`
smallest metric values are the layer's candidates and the cap threshold is
their max. -/
def layerStayAndSub (l : GLayer) : Option (ℤ × List ℤ) :=
  if stayMetricNum l ≤ 0 then
    (l.metric.min?).map (fun mn => (mn - 1, ([] : List ℤ)))
  else if (stayMetricNum l).toNat ≤ l.metric.length then
    ((topkSmall l.metric (stayMetricNum l).toNat).max?).map
      (fun mx => (mx, topkSmall l.metric (stayMetricNum l).toNat))
  else none

/-- The per-layer loop of `_calculate_threshold` (lines 198-221), in group
order. -/
def layerSubs : List GLayer → Option (List (ℤ × List ℤ))
  | [] => some []
  | l :: ls =>
    match layerStayAndSub l, layerSubs ls with
    | some p, some ps => some (p :: ps)
    | _, _ => none

/-- `_calculate_threshold` (lines 189-228): concatenate the candidate pools,
`total_prune_num = int(total_sparsity * total_weight_num)`, global threshold
over the pool (sentinel below the pool minimum when the budget is zero);
returns the global threshold and the per-layer cap thresholds. -/
def calcThreshold (layers : List GLayer) (ts : Frac) : Option (ℤ × List ℤ) :=
  match layerSubs layers with
  | none => none
  | some ps =>
    let pool := (ps.map Prod.snd).flatten
    let tpn := pruneNum ts ((layers.map (fun l => l.metric.length)).sum)
    match (if tpn = 0 then (pool.min?).map (fun mn => mn - 1)
           else topkSmallMax pool tpn) with
    | none => none
    | some thr => some (thr, ps.map Prod.fst)

/-- `GlobalSparsityAllocator.generate_sparsity` for one group (lines
180-187): every layer keeps exactly the entries strictly greater than
`min(threshold, sub_thresholds[name])`. -/
def globalGenerate (layers : List GLayer) (ts : Frac) : Option (List (List ℤ)) :=
  match calcThreshold layers ts with
  | none => none
  | some gs =>
    some (List.zipWith (fun l sub => gtMask l.metric (min gs.1 sub)) layers gs.2)

section GlobalLemmas

theorem layerSubs_forall2 : ∀ {layers : List GLayer} {ps : List (ℤ × List ℤ)},
    layerSubs layers = some ps →
    List.Forall₂ (fun l p => layerStayAndSub l = some p) layers ps := by
  intro layers
  induction layers with
  | nil =>
    intro ps h
    unfold layerSubs at h
    cases h
    exact List.Forall₂.nil
  | cons l ls ih =>
    intro ps h
    unfold layerSubs at h
    cases hl : layerStayAndSub l with
    | none => rw [hl] at h; exact absurd h (by simp)
    | some p =>
      cases hls : layerSubs ls with
      | none => rw [hl, hls] at h; exact absurd h (by simp)
      | some ps' =>
        rw [hl, hls] at h
        cases h
        exact List.Forall₂.cons hl (ih hls)

theorem calcThreshold_spec {layers : List GLayer} {ts : Frac} {g : ℤ}
    {subs : List ℤ} (h : calcThreshold layers ts = some (g, subs)) :
    ∃ ps, layerSubs layers = some ps ∧ subs = ps.map Prod.fst ∧
      ((pruneNum ts ((layers.map (fun l => l.metric.length)).sum) = 0 ∧
        (((ps.map Prod.snd).flatten).min?).map (fun mn => mn - 1) = some g) ∨
       (0 < pruneNum ts ((layers.map (fun l => l.metric.length)).sum) ∧
        topkSmallMax ((ps.map Prod.snd).flatten)
          (pruneNum ts ((layers.map (fun l => l.metric.length)).sum)) = some g)) := by
  unfold calcThreshold at h
  cases hsub : layerSubs layers with
  | none => rw [hsub] at h; exact absurd h (by simp)
  | some ps =>
    rw [hsub] at h
    by_cases htpn : pruneNum ts ((layers.map (fun l => l.metric.length)).sum) = 0
    · simp only [htpn, if_pos rfl] at h
      cases hmin : (((ps.map Prod.snd).flatten).min?).map (fun mn => mn - 1) with
      | none => rw [hmin] at h; exact absurd h (by simp)
      | some thr =>
        rw [hmin] at h
        cases h
        exact ⟨ps, rfl, rfl, Or.inl ⟨htpn, hmin⟩⟩
    · simp only [if_neg htpn] at h
      cases hmax : topkSmallMax ((ps.map Prod.snd).flatten)
          (pruneNum ts ((layers.map (fun l => l.metric.length)).sum)) with
      | none => rw [hmax] at h; exact absurd h (by simp)
      | some thr =>
        rw [hmax] at h
        cases h
        exact ⟨ps, rfl, rfl, Or.inr ⟨Nat.pos_of_ne_zero htpn, hmax⟩⟩

theorem globalGenerate_spec {layers : List GLayer} {ts : Frac}
    {masks : List (List ℤ)} (h : globalGenerate layers ts = some masks) :
    ∃ g subs, calcThreshold layers ts = some (g, subs) ∧
      masks = List.zipWith (fun l sub => gtMask l.metric (min g sub)) layers subs := by
  unfold globalGenerate at h
  cases hct : calcThreshold layers ts with
  | none => rw [hct] at h; exact absurd h (by simp)
  | some gs =>
    obtain ⟨g1, subs1⟩ := gs
    rw [hct] at h
    cases h
    exact ⟨g1, subs1, rfl, rfl⟩

theorem layerStayAndSub_pos {l : GLayer} {sub : ℤ} {stay : List ℤ}
    (hpos : 0 < stayMetricNum l)
    (h : layerStayAndSub l = some (sub, stay)) :
    stay = topkSmall l.metric (stayMetricNum l).toNat ∧
    topkSmallMax l.metric (stayMetricNum l).toNat = some sub ∧
    0 < (stayMetricNum l).toNat ∧ (stayMetricNum l).toNat ≤ l.metric.length := by
  unfold layerStayAndSub at h
  rw [if_neg (by omega)] at h
  by_cases hle : (stayMetricNum l).toNat ≤ l.metric.length
  · rw [if_pos hle] at h
    rcases Option.map_eq_some'.mp h with ⟨mx, hmx, heq⟩
    have hsub : sub = mx := (congrArg Prod.fst heq).symm
    have hstay : stay = topkSmall l.metric (stayMetricNum l).toNat :=
      (congrArg Prod.snd heq).symm
    refine ⟨hstay, ?_, by omega, hle⟩
    unfold topkSmallMax
    rw [if_pos hle, hmx, hsub]
  · rw [if_neg hle] at h
    exact absurd h (by simp)

theorem layerStayAndSub_nonpos {l : GLayer} {sub : ℤ} {stay : List ℤ}
    (hnp : stayMetricNum l ≤ 0) (h : layerStayAndSub l = some (sub, stay)) :
    ∃ mn, l.metric.min? = some mn ∧ sub = mn - 1 ∧ stay = [] := by
  unfold layerStayAndSub at h
  rw [if_pos hnp] at h
  rcases Option.map_eq_some'.mp h with ⟨mn, hmn, heq⟩
  exact ⟨mn, hmn, (congrArg Prod.fst heq).symm, (congrArg Prod.snd heq).symm⟩

/-- Per-layer cap bound: with pairwise-distinct metric values, the final mask
prunes at most a `max_sparsity_per_layer` fraction of the layer. -/
theorem layer_cap_bound {l : GLayer} {g sub : ℤ} {stay : List ℤ}
    (hnd : l.metric.Nodup) (hle : l.maxSpl.leOne) (hden : 0 < l.maxSpl.den)
    (hs : layerStayAndSub l = some (sub, stay)) :
    countZeros (gtMask l.metric (min g sub)) * l.maxSpl.den ≤
      l.maxSpl.num * l.metric.length := by
  rw [countZeros_gtMask]
  by_cases hpos : 0 < stayMetricNum l
  · obtain ⟨hstay, hmax, hp, hlen⟩ := layerStayAndSub_pos hpos hs
    -- pruned count is at most the stay count
    have hmono : l.metric.countP (fun x => decide (x ≤ min g sub)) ≤
        l.metric.countP (fun x => decide (x ≤ sub)) := by
      apply List.countP_mono_left
      intro x _ hx
      have : x ≤ min g sub := of_decide_eq_true hx
      simp only [decide_eq_true_eq]
      omega
    have hone : l.metric.countP (fun x => decide (x = sub)) = 1 :=
      countP_eq_one_of_nodup hnd (topkSmallMax_mem hmax)
    have hcount : l.metric.countP (fun x => decide (x ≤ sub)) =
        (stayMetricNum l).toNat := countP_le_thr_eq hmax hone
    -- arithmetic: stay_metric_num * den ≤ num * numel
    have hle' : l.maxSpl.num ≤ l.maxSpl.den := hle
    have hret : retentionNumel l =
        ceilDivNat ((l.maxSpl.den - l.maxSpl.num) * l.metric.length) l.maxSpl.den := rfl
    have hceil : (l.maxSpl.den - l.maxSpl.num) * l.metric.length ≤
        l.maxSpl.den * retentionNumel l := by
      rw [hret]
      exact le_ceilDivNat_mul hden
    have harith : (stayMetricNum l).toNat * l.maxSpl.den ≤
        l.maxSpl.num * l.metric.length := by
      have hsn : ((stayMetricNum l).toNat : ℤ) =
          (l.metric.length : ℤ) - (retentionNumel l : ℤ) := by
        have hdef : stayMetricNum l =
            (l.metric.length : ℤ) - (removedMetricNum l : ℤ) := rfl
        have hrm : removedMetricNum l = retentionNumel l := removedMetricNum_eq l
        omega
      have hceilz : ((l.maxSpl.den : ℤ) - l.maxSpl.num) * l.metric.length ≤
          (l.maxSpl.den : ℤ) * retentionNumel l := by
        zify [hle'] at hceil
        exact hceil
      zify
      rw [hsn]
      linarith
    calc l.metric.countP (fun x => decide (x ≤ min g sub)) * l.maxSpl.den
        ≤ (stayMetricNum l).toNat * l.maxSpl.den := by
          apply Nat.mul_le_mul_right
          rw [← hcount]
          exact hmono
      _ ≤ l.maxSpl.num * l.metric.length := harith
  · obtain ⟨mn, hmn, hsubeq, _⟩ := layerStayAndSub_nonpos (by omega) hs
    have hzero : l.metric.countP (fun x => decide (x ≤ min g sub)) = 0 := by
      rw [List.countP_eq_zero]
      intro x hx hxle
      have h1 : mn ≤ x := (int_min?_spec hmn).2 x hx
      have h2 : x ≤ min g sub := of_decide_eq_true hxle
      omega
    rw [hzero]
    simpa using Nat.zero_le _

theorem forall2_getD_spec {layers : List GLayer} {ps : List (ℤ × List ℤ)}
    (hf2 : List.Forall₂ (fun l p => layerStayAndSub l = some p) layers ps)
    {i : ℕ} (hi : i < layers.length) :
    ∃ p, layerStayAndSub (layers.getD i defaultGLayer) = some p ∧
      (ps.map Prod.fst).getD i 0 = p.1 ∧ p ∈ ps := by
  have hpi : i < ps.length := by have := hf2.length_eq; omega
  refine ⟨ps.get ⟨i, hpi⟩, ?_, ?_, List.get_mem ps i hpi⟩
  · have hg := hf2.get hi hpi
    rw [List.getD_eq_getElem layers defaultGLayer hi]
    exact hg
  · rw [List.getD_eq_getElem _ _ (by rw [List.length_map]; omega), List.getElem_map]
    rfl

end GlobalLemmas

/-- **C2 (amended).** Global allocator: the final per-layer decision is
`keep iff metric > min(global_threshold, cap_threshold)`, and — provided the
layer's metric values are pairwise distinct — the pruned fraction never
exceeds `max_sparsity_per_layer` (with ties at the cap threshold the cap can
be overshot, see the counterexample). -/
theorem global_cap_spec (layers : List GLayer) (ts : Frac) (masks : List (List ℤ))
    (h : globalGenerate layers ts = some masks) (i : ℕ) (hi : i < layers.length)
    (hnd : (layers.getD i defaultGLayer).metric.Nodup)
    (hle : (layers.getD i defaultGLayer).maxSpl.leOne)
    (hden : 0 < (layers.getD i defaultGLayer).maxSpl.den) :
    ∃ g subs, calcThreshold layers ts = some (g, subs) ∧
      masks.getD i [] =
        gtMask (layers.getD i defaultGLayer).metric (min g (subs.getD i 0)) ∧
      countZeros (masks.getD i []) * (layers.getD i defaultGLayer).maxSpl.den ≤
        (layers.getD i defaultGLayer).maxSpl.num *
          (layers.getD i defaultGLayer).metric.length := by
  obtain ⟨g, subs, hct, hmasks⟩ := globalGenerate_spec h
  obtain ⟨ps, hps, hsubs, _⟩ := calcThreshold_spec hct
  subst hsubs
  subst hmasks
  have hf2 := layerSubs_forall2 hps
  have hlen_ps : layers.length = ps.length := hf2.length_eq
  have hzlen : i < (List.zipWith (fun l sub => gtMask l.metric (min g sub))
      layers (ps.map Prod.fst)).length := by
    rw [List.length_zipWith, List.length_map]
    omega
  have hgetlayer : layers[i] = layers.getD i defaultGLayer :=
    (List.getD_eq_getElem layers defaultGLayer hi).symm
  obtain ⟨p, hget, hsub1, hpmem⟩ := forall2_getD_spec hf2 hi
  have hmi : (List.zipWith (fun l sub => gtMask l.metric (min g sub))
      layers (ps.map Prod.fst)).getD i []
      = gtMask (layers.getD i defaultGLayer).metric
          (min g ((ps.map Prod.fst).getD i 0)) := by
    rw [List.getD_eq_getElem _ _ hzlen, List.getElem_zipWith, ← hgetlayer,
      List.getD_eq_getElem _ _ (by rw [List.length_map]; omega)]
  refine ⟨g, ps.map Prod.fst, hct, hmi, ?_⟩
  rw [hmi, hsub1]
  exact layer_cap_bound hnd hle hden hget

/-- **C2 counterexample.** With ties at the cap threshold the per-layer cap
is violated: one layer with metric `[1,1]` and `max_sparsity_per_layer = 1/2`
loses both elements (pruned fraction 1 > 1/2). -/
theorem global_cap_cex :
    globalGenerate [⟨[1, 1], ⟨1, 2⟩⟩] ⟨1, 2⟩ = some [[0, 0]] ∧
    ¬ (countZeros [0, 0] * 2 ≤ 1 * 2) := by decide

/-- Witness for the amended C2 at a concrete group. -/
theorem global_cap_spec_witness :
    ∃ g subs, calcThreshold [⟨[1, 2, 3, 4], ⟨1, 2⟩⟩] ⟨1, 2⟩ = some (g, subs) ∧
      List.getD [[(0 : ℤ), 0, 1, 1]] 0 [] =
        gtMask (List.getD [(⟨[1, 2, 3, 4], ⟨1, 2⟩⟩ : GLayer)] 0 defaultGLayer).metric
          (min g (subs.getD 0 0)) ∧
      countZeros (List.getD [[(0 : ℤ), 0, 1, 1]] 0 []) *
          (List.getD [(⟨[1, 2, 3, 4], ⟨1, 2⟩⟩ : GLayer)] 0 defaultGLayer).maxSpl.den ≤
        (List.getD [(⟨[1, 2, 3, 4], ⟨1, 2⟩⟩ : GLayer)] 0 defaultGLayer).maxSpl.num *
          (List.getD [(⟨[1, 2, 3, 4], ⟨1, 2⟩⟩ : GLayer)] 0 defaultGLayer).metric.length :=
  global_cap_spec [⟨[1, 2, 3, 4], ⟨1, 2⟩⟩] ⟨1, 2⟩ [[0, 0, 1, 1]]
    (by decide) 0 (by decide) (by decide) (by decide) (by decide)

/-- **C8 (amended).** Global allocator: a layer with
`stay_metric_num ≤ 0` contributes nothing to the shared ranking pool and its
per-layer threshold is the sentinel `metric.min() - 1`, strictly below the
layer minimum — so the whole layer is *kept* (fully protected from pruning),
not fully pruned. -/
theorem global_protected_spec (layers : List GLayer) (ts : Frac)
    (masks : List (List ℤ)) (h : globalGenerate layers ts = some masks)
    (i : ℕ) (hi : i < layers.length)
    (hstay : stayMetricNum (layers.getD i defaultGLayer) ≤ 0) :
    ∃ g subs mn, calcThreshold layers ts = some (g, subs) ∧
      (layers.getD i defaultGLayer).metric.min? = some mn ∧
      layerStayAndSub (layers.getD i defaultGLayer) = some (mn - 1, []) ∧
      subs.getD i 0 = mn - 1 ∧
      masks.getD i [] =
        List.replicate (layers.getD i defaultGLayer).metric.length 1 := by
  obtain ⟨g, subs, hct, hmasks⟩ := globalGenerate_spec h
  obtain ⟨ps, hps, hsubs, _⟩ := calcThreshold_spec hct
  subst hsubs
  subst hmasks
  have hf2 := layerSubs_forall2 hps
  have hlen_ps : layers.length = ps.length := hf2.length_eq
  have hzlen : i < (List.zipWith (fun l sub => gtMask l.metric (min g sub))
      layers (ps.map Prod.fst)).length := by
    rw [List.length_zipWith, List.length_map]
    omega
  have hgetlayer : layers[i] = layers.getD i defaultGLayer :=
    (List.getD_eq_getElem layers defaultGLayer hi).symm
  obtain ⟨p, hget, hsub1, hpmem⟩ := forall2_getD_spec hf2 hi
  obtain ⟨mn, hmn, hfst, hsnd⟩ := layerStayAndSub_nonpos hstay hget
  have hps_eq : p = (mn - 1, ([] : List ℤ)) := by
    have hp : p = (p.1, p.2) := rfl
    rw [hp, hfst, hsnd]
  have hmi : (List.zipWith (fun l sub => gtMask l.metric (min g sub))
      layers (ps.map Prod.fst)).getD i []
      = gtMask (layers.getD i defaultGLayer).metric
          (min g ((ps.map Prod.fst).getD i 0)) := by
    rw [List.getD_eq_getElem _ _ hzlen, List.getElem_zipWith, ← hgetlayer,
      List.getD_eq_getElem _ _ (by rw [List.length_map]; omega)]
  refine ⟨g, ps.map Prod.fst, mn, hct, hmn, by rw [hget, hps_eq], ?_, ?_⟩
  · rw [hsub1, hfst]
  · rw [hmi, hsub1, hfst]
    apply List.eq_replicate_iff.mpr
    refine ⟨gtMask_length _ _, ?_⟩
    intro b hb
    obtain ⟨x, hx, hbx⟩ := List.mem_map.mp hb
    have hxm : mn ≤ x := (int_min?_spec hmn).2 x hx
    rw [← hbx, if_pos (by omega)]

/-- **C8 counterexample.** A layer with `stay_metric_num ≤ 0` (here: cap 0,
fully protected) ends with an all-ones mask — zero pruned elements — so it is
not "eligible to be fully pruned": the sentinel forces full retention. -/
theorem global_protected_cex :
    globalGenerate [⟨[5, 6], ⟨0, 1⟩⟩, ⟨[1, 2, 3, 4], ⟨1, 1⟩⟩] ⟨1, 2⟩ =
      some [[1, 1], [0, 0, 0, 1]] ∧
    stayMetricNum ⟨[5, 6], ⟨0, 1⟩⟩ ≤ 0 ∧
    countZeros [1, 1] = 0 := by decide

/-- Witness for the amended C8 at the same concrete group. -/
theorem global_protected_spec_witness :
    ∃ g subs mn,
      calcThreshold [⟨[5, 6], ⟨0, 1⟩⟩, ⟨[1, 2, 3, 4], ⟨1, 1⟩⟩] ⟨1, 2⟩ =
        some (g, subs) ∧
      (List.getD [(⟨[5, 6], ⟨0, 1⟩⟩ : GLayer), ⟨[1, 2, 3, 4], ⟨1, 1⟩⟩] 0
        defaultGLayer).metric.min? = some mn ∧
      layerStayAndSub (List.getD [(⟨[5, 6], ⟨0, 1⟩⟩ : GLayer), ⟨[1, 2, 3, 4], ⟨1, 1⟩⟩] 0
        defaultGLayer) = some (mn - 1, []) ∧
      subs.getD 0 0 = mn - 1 ∧
      List.getD [[(1 : ℤ), 1], [0, 0, 0, 1]] 0 [] =
        List.replicate (List.getD [(⟨[5, 6], ⟨0, 1⟩⟩ : GLayer), ⟨[1, 2, 3, 4], ⟨1, 1⟩⟩] 0
          defaultGLayer).metric.length 1 :=
  global_protected_spec [⟨[5, 6], ⟨0, 1⟩⟩, ⟨[1, 2, 3, 4], ⟨1, 1⟩⟩] ⟨1, 2⟩
    [[1, 1], [0, 0, 0, 1]] (by decide) 0 (by decide) (by decide)

section GlobalTotal

/-- With distinct metric values, the pruned count of a layer equals the
number of its pooled candidates at or below the global threshold: the cap
threshold exactly cuts the ranking pool contribution. -/
theorem layer_pruned_eq_pool_count {l : GLayer} {g sub : ℤ} {stay : List ℤ}
    (hnd : l.metric.Nodup) (hpos : 0 < stayMetricNum l)
    (hs : layerStayAndSub l = some (sub, stay)) :
    l.metric.countP (fun x => decide (x ≤ min g sub)) =
      stay.countP (fun x => decide (x ≤ g)) := by
  obtain ⟨hstay, hmax, hp, hlen⟩ := layerStayAndSub_pos hpos hs
  by_cases hg : g < sub
  · have hmin_eq : min g sub = g := min_eq_left (by omega)
    rw [hmin_eq, hstay]
    rw [← countP_sortAsc,
      ← List.take_append_drop ((stayMetricNum l).toNat) (sortAsc l.metric),
      List.countP_append]
    have hdrop0 : ((sortAsc l.metric).drop ((stayMetricNum l).toNat)).countP
        (fun x => decide (x ≤ g)) = 0 := by
      rw [List.countP_eq_zero]
      intro y hy hyg
      have hsuby : sub ≤ y :=
        sorted_take_le_drop l.metric _ sub (topkSmallMax_bound hmax).1 y hy
      have hyg' : y ≤ g := of_decide_eq_true hyg
      omega
    unfold topkSmall
    omega
  · have hmin_eq : min g sub = sub := min_eq_right (by omega)
    rw [hmin_eq, hstay]
    have h1 : l.metric.countP (fun x => decide (x ≤ sub)) = (stayMetricNum l).toNat :=
      countP_le_thr_eq hmax (countP_eq_one_of_nodup hnd (topkSmallMax_mem hmax))
    rw [h1]
    have h2 : (topkSmall l.metric ((stayMetricNum l).toNat)).countP
        (fun x => decide (x ≤ g))
        = (topkSmall l.metric ((stayMetricNum l).toNat)).length := by
      apply List.countP_eq_length.mpr
      intro a ha
      have := (topkSmallMax_bound hmax).2 a ha
      simp only [decide_eq_true_eq]
      omega
    rw [h2]
    unfold topkSmall
    exact (length_take_sortAsc hlen).symm

/-- Summed over a group, the pruned counts equal the count of pooled
candidates at or below the global threshold. -/
theorem global_sum_eq_pool_count {g : ℤ} {layers : List GLayer}
    {ps : List (ℤ × List ℤ)}
    (hf2 : List.Forall₂ (fun l p => layerStayAndSub l = some p) layers ps) :
    (∀ l ∈ layers, l.metric.Nodup) → (∀ l ∈ layers, 0 < stayMetricNum l) →
    ((List.zipWith (fun l sub => gtMask l.metric (min g sub)) layers
        (ps.map Prod.fst)).map countZeros).sum
      = ((ps.map Prod.snd).flatten).countP (fun x => decide (x ≤ g)) := by
  induction hf2 with
  | nil =>
    intro _ _
    simp
  | cons hl hrest ih =>
    rename_i l p ls ps'
    intro hnd hpos
    simp only [List.map_cons, List.zipWith_cons_cons, List.flatten_cons,
      List.countP_append, List.sum_cons]
    rw [countZeros_gtMask]
    rw [layer_pruned_eq_pool_count (hnd l (by simp)) (hpos l (by simp)) hl]
    rw [ih (fun x hx => hnd x (by simp [hx])) (fun x hx => hpos x (by simp [hx]))]

theorem subperm_append {a b c d : List ℤ} (h1 : a.Subperm b) (h2 : c.Subperm d) :
    (a ++ c).Subperm (b ++ d) := by
  obtain ⟨l1, p1, s1⟩ := h1
  obtain ⟨l2, p2, s2⟩ := h2
  exact ⟨l1 ++ l2, p1.append p2, s1.append s2⟩

theorem subperm_nodup {a b : List ℤ} (h : a.Subperm b) (hb : b.Nodup) :
    a.Nodup := by
  obtain ⟨l, p, s⟩ := h
  exact p.nodup_iff.mp (hb.sublist s)

theorem stay_subperm {l : GLayer} {sub : ℤ} {stay : List ℤ}
    (hs : layerStayAndSub l = some (sub, stay)) : stay.Subperm l.metric := by
  by_cases hpos : 0 < stayMetricNum l
  · obtain ⟨hstay, _, _, _⟩ := layerStayAndSub_pos hpos hs
    rw [hstay]
    unfold topkSmall
    refine List.Subperm.trans (List.Sublist.subperm (List.take_sublist _ _)) ?_
    exact (sortAsc_perm l.metric).subperm
  · obtain ⟨mn, _, _, hsnd⟩ := layerStayAndSub_nonpos (by omega) hs
    rw [hsnd]
    exact List.nil_subperm

theorem pool_subperm {layers : List GLayer} {ps : List (ℤ × List ℤ)}
    (hf2 : List.Forall₂ (fun l p => layerStayAndSub l = some p) layers ps) :
    ((ps.map Prod.snd).flatten).Subperm
      ((layers.map (fun l => l.metric)).flatten) := by
  induction hf2 with
  | nil => exact List.Subperm.refl _
  | cons hl hrest ih =>
    rename_i l p ls ps'
    simp only [List.map_cons, List.flatten_cons]
    exact subperm_append (stay_subperm hl) ih

/-- Zero group budget in the Global allocator: the pool-minimum sentinel
keeps every element of every layer. -/
theorem global_zero_budget_allones {layers : List GLayer} {ts : Frac}
    {masks : List (List ℤ)} (h : globalGenerate layers ts = some masks)
    (h0 : pruneNum ts ((layers.map (fun l => l.metric.length)).sum) = 0)
    {i : ℕ} (hi : i < layers.length) :
    masks.getD i [] =
      List.replicate ((layers.getD i defaultGLayer).metric.length) 1 := by
  obtain ⟨g, subs, hct, hmasks⟩ := globalGenerate_spec h
  obtain ⟨ps, hps, hsubs, hthr⟩ := calcThreshold_spec hct
  subst hsubs
  subst hmasks
  have hf2 := layerSubs_forall2 hps
  have hlen_ps : layers.length = ps.length := hf2.length_eq
  have hzlen : i < (List.zipWith (fun l sub => gtMask l.metric (min g sub))
      layers (ps.map Prod.fst)).length := by
    rw [List.length_zipWith, List.length_map]
    omega
  have hgetlayer : layers[i] = layers.getD i defaultGLayer :=
    (List.getD_eq_getElem layers defaultGLayer hi).symm
  obtain ⟨p, hget, hsub1, hpmem⟩ := forall2_getD_spec hf2 hi
  have hmi : (List.zipWith (fun l sub => gtMask l.metric (min g sub))
      layers (ps.map Prod.fst)).getD i []
      = gtMask (layers.getD i defaultGLayer).metric
          (min g ((ps.map Prod.fst).getD i 0)) := by
    rw [List.getD_eq_getElem _ _ hzlen, List.getElem_zipWith, ← hgetlayer,
      List.getD_eq_getElem _ _ (by rw [List.length_map]; omega)]
  rcases hthr with ⟨_, hmin0⟩ | ⟨hpos', _⟩
  · rcases Option.map_eq_some'.mp hmin0 with ⟨mn0, hmn0, hg⟩
    rw [hmi, hsub1]
    apply List.eq_replicate_iff.mpr
    refine ⟨gtMask_length _ _, ?_⟩
    intro b hb
    obtain ⟨x, hx, hbx⟩ := List.mem_map.mp hb
    have hgoal : min g p.1 < x := by
      by_cases hstay : stayMetricNum (layers.getD i defaultGLayer) ≤ 0
      · obtain ⟨mn, hmn, hfst, _⟩ := layerStayAndSub_nonpos hstay hget
        have hxm : mn ≤ x := (int_min?_spec hmn).2 x hx
        have hminle : min g p.1 ≤ p.1 := min_le_right _ _
        omega
      · obtain ⟨hstay_eq, hmax, hsn_pos, hsn_len⟩ :=
          layerStayAndSub_pos (by omega) hget
        -- the cap threshold is a pooled value, so it is at least the pool min
        have hp1_stay : p.1 ∈ p.2 := by
          rw [hstay_eq]
          exact (topkSmallMax_bound hmax).1
        have hp1_pool : p.1 ∈ (ps.map Prod.snd).flatten :=
          List.mem_flatten.mpr ⟨p.2, List.mem_map_of_mem _ hpmem, hp1_stay⟩
        have hmn0_le : mn0 ≤ p.1 := (int_min?_spec hmn0).2 _ hp1_pool
        -- every metric entry is at least the pool min
        have hxpool : mn0 ≤ x := by
          have hx' : x ∈ sortAsc (layers.getD i defaultGLayer).metric :=
            (sortAsc_perm _).mem_iff.mpr hx
          rw [← List.take_append_drop ((stayMetricNum (layers.getD i
            defaultGLayer)).toNat) (sortAsc (layers.getD i defaultGLayer).metric)]
            at hx'
          rcases List.mem_append.mp hx' with hxt | hxd
          · have hxstay : x ∈ p.2 := by
              rw [hstay_eq]
              exact hxt
            have : x ∈ (ps.map Prod.snd).flatten :=
              List.mem_flatten.mpr ⟨p.2, List.mem_map_of_mem _ hpmem, hxstay⟩
            exact (int_min?_spec hmn0).2 x this
          · have hsubx : p.1 ≤ x := by
              have hmem := (topkSmallMax_bound hmax).1
              exact sorted_take_le_drop _ _ p.1 hmem x hxd
            omega
        have hgle : min g p.1 ≤ g := min_le_left _ _
        omega
    rw [← hbx, if_pos hgoal]
  · omega

end GlobalTotal

/-- **C3 (amended).** Global allocator group budget: when the metric values
are pairwise distinct across the whole group, no layer is fully protected by
its cap (`stay_metric_num > 0` everywhere) and the group budget is positive,
the total number of pruned elements across the group is exactly
`int(total_sparsity * total_weight_num)` — the group-aggregate sparsity
matches the target up to the floor rounding.  (Which layers the pruned
elements come from depends on the metric values; the 10/50 split of the
spec's two-layer scenario holds for metrics that put layerA's candidates
below the global threshold, as in the witness, but not in general — see the
counterexample.) -/
theorem global_total_spec (layers : List GLayer) (ts : Frac)
    (masks : List (List ℤ)) (h : globalGenerate layers ts = some masks)
    (hnd : ((layers.map (fun l => l.metric)).flatten).Nodup)
    (hpos : ∀ l ∈ layers, 0 < stayMetricNum l)
    (htpn : 0 < pruneNum ts ((layers.map (fun l => l.metric.length)).sum)) :
    (masks.map countZeros).sum =
      pruneNum ts ((layers.map (fun l => l.metric.length)).sum) := by
  obtain ⟨g, subs, hct, hmasks⟩ := globalGenerate_spec h
  obtain ⟨ps, hps, hsubs, hthr⟩ := calcThreshold_spec hct
  subst hsubs
  subst hmasks
  have hf2 := layerSubs_forall2 hps
  have hnd_each : ∀ l ∈ layers, l.metric.Nodup := by
    intro l hl
    have hmem : l.metric ∈ layers.map (fun l => l.metric) :=
      List.mem_map_of_mem _ hl
    exact (List.nodup_flatten.mp hnd).1 _ hmem
  rcases hthr with ⟨h0, _⟩ | ⟨_, hmax⟩
  · omega
  · rw [global_sum_eq_pool_count hf2 hnd_each hpos]
    have hpoolnd := subperm_nodup (pool_subperm hf2) hnd
    exact countP_le_thr_eq hmax (countP_eq_one_of_nodup hpoolnd (topkSmallMax_mem hmax))

/-- Layer A of the spec's two-layer global scenario: 100 elements,
`max_sparsity_per_layer = 1/10`, metric values 0..99 (the smallest of the
group). -/
def c3LayerA : GLayer := ⟨List.map Int.ofNat (List.range 100), ⟨1, 10⟩⟩

/-- Layer B of the spec's two-layer global scenario: 100 elements, no cap,
metric values 1000..1099. -/
def c3LayerB : GLayer := ⟨List.map (fun n => Int.ofNat (1000 + n)) (List.range 100), ⟨1, 1⟩⟩

/-- **C3 counterexample.** The 10/50 split of the spec's scenario is not
forced by the configuration: with the same sizes (100/100),
`total_sparsity = 3/10` and `max_sparsity_per_layer = 1/10` on layerA, but
layerA's metric values all above layerB's, layerA loses 0 elements (not 10)
and layerB loses 60 (not 50); only the total 60 is invariant. -/
theorem global_total_cex :
    (globalGenerate
        [⟨List.map (fun n => Int.ofNat (1000 + n)) (List.range 100), ⟨1, 10⟩⟩,
         ⟨List.map Int.ofNat (List.range 100), ⟨1, 1⟩⟩] ⟨3, 10⟩).map
      (fun ms => ms.map countZeros) = some [0, 60] ∧
    ([0, 60] : List ℕ) ≠ [10, 50] := by decide

/-- Witness for the amended C3: the spec's scenario with layerA's metric
below layerB's gives exactly the 10/50 split and total 60 = int(0.3·200). -/
theorem global_total_spec_witness :
    (([List.replicate 10 (0 : ℤ) ++ List.replicate 90 1,
       List.replicate 50 (0 : ℤ) ++ List.replicate 50 1].map countZeros).sum =
      pruneNum ⟨3, 10⟩ (([c3LayerA, c3LayerB].map (fun l => l.metric.length)).sum)) ∧
    countZeros (List.replicate 10 (0 : ℤ) ++ List.replicate 90 1) = 10 ∧
    countZeros (List.replicate 50 (0 : ℤ) ++ List.replicate 50 1) = 50 ∧
    pruneNum ⟨3, 10⟩ (([c3LayerA, c3LayerB].map (fun l => l.metric.length)).sum) = 60 :=
  ⟨global_total_spec [c3LayerA, c3LayerB] ⟨3, 10⟩
      [List.replicate 10 (0 : ℤ) ++ List.replicate 90 1,
       List.replicate 50 (0 : ℤ) ++ List.replicate 50 1]
      (by decide) (by decide) (by decide) (by decide),
   by decide, by decide, by decide⟩

/-! ## Dependency-aware allocator (`Conv2dDependencyAwareAllocator`,
lines 231-303), continuous-mask off. -/

/-- `_group_metric_calculate` (lines 294-303): elementwise sum of the member
metrics; the source asserts all sizes match and raises otherwise (`none`);
an empty group would crash on `group_metrics[0]`. -/
def sumMetrics : List (List ℤ) → Option (List ℤ)
  | [] => none
  | m0 :: rest =>
    if rest.all (fun m => m.length == m0.length)
    then some (rest.foldl (fun acc m => List.zipWith (· + ·) acc m) m0)
    else none

/-- `np.lcm.reduce` over the members' channel-group divisors. -/
def lcmReduce (divs : List ℕ) : ℕ := divs.foldl Nat.lcm 1

/-- Exact comparison of two rates: `a.num/a.den ≤ b.num/b.den`. -/
def fracLE (a b : Frac) : Bool := decide (a.num * b.den ≤ b.num * a.den)

def fracMin (a b : Frac) : Frac := if fracLE a b then a else b

/-- Python `min` over the members' `total_sparsity` values (error on an
empty group). -/
def minSparsity : List Frac → Option Frac
  | [] => none
  | s :: ss => some (ss.foldl fracMin s)

/-- `pruned_per_conv2d_group = int(group_metric.numel() / max_conv2d_group *
min_sparsity)` (line 268): exact floor of the product. -/
def depPrunedPerGroup (numel maxG : ℕ) (s : Frac) : ℕ :=
  numel * s.num / (maxG * s.den)

/-- `group_metric[_start:_end]`. -/
def segSlice (xs : List ℤ) (start len : ℕ) : List ℤ := (xs.drop start).take len

/-- One segment of the structural loop (lines 275-279): threshold over the
`pruned_per_conv2d_group` smallest, or all-ones when that count is zero. -/
def segMask1 (seg : List ℤ) (pruned step : ℕ) : Option (List ℤ) :=
  if 0 < pruned then (topkSmallMax seg pruned).map (gtMask seg)
  else some (List.replicate step 1)

/-- The structural loop (lines 271-281) over segments
`gid = start, ..., start + count - 1`, concatenated in order. -/
def segMasks (gm : List ℤ) (pruned step : ℕ) : ℕ → ℕ → Option (List ℤ)
  | _, 0 => some []
  | start, count + 1 =>
    match segMask1 (segSlice gm (start * step) step) pruned step,
          segMasks gm pruned step (start + 1) count with
    | some m, some rest => some (m ++ rest)
    | _, _ => none

/-- Lines 266-281 for one dependency set: partition the summed metric into
`max_conv2d_group` segments of `conv2d_group_step = int(numel / max)` and
mask each segment. -/
def depGroupMask (gm : List ℤ) (minS : Frac) (maxG : ℕ) : Option (List ℤ) :=
  segMasks gm (depPrunedPerGroup gm.length maxG minS) (gm.length / maxG) 0 maxG

/-- Lines 283-288, the per-layer second pass: multiply the layer metric by
the shared structural mask and re-threshold at the layer's own
`total_sparsity`.  Note there is no `pruned_num == 0` guard here:
`torch.topk(metric, 0)[0].max()` raises (`none`). -/
def depSecondPassMask (metric groupMask : List ℤ) (s : Frac) : Option (List ℤ) :=
  (topkSmallMax (List.zipWith (· * ·) metric groupMask)
      (pruneNum s (List.zipWith (· * ·) metric groupMask).length)).map
    (gtMask (List.zipWith (· * ·) metric groupMask))

/-- One member layer of `Conv2dDependencyAwareAllocator.generate_sparsity`
including continuous-mask mode: line 256 multiplies the stored metric tensor
in place by the binarized previous mask (element granularity), the second
pass (lines 283-288) re-thresholds the group-masked metric at the layer's
own sparsity, and line 291 re-multiplies the produced weight mask by the
previous one.  The result pairs the final weight mask with the metric as
left in the supplied `metrics` mapping after the call. -/
def depLayerCall (continuous : Bool) (prevMask metric groupMask : List ℤ)
    (s : Frac) : Option (List ℤ × List ℤ) :=
  let metric1 :=
    if continuous then List.zipWith (· * ·) metric (binarize prevMask) else metric
  (depSecondPassMask metric1 groupMask s).map
    (fun mask =>
      (if continuous then List.zipWith (· * ·) mask prevMask else mask, metric1))

/-- The per-layer configuration the pruner wrappers and the dependency
resolver supply: `total_sparsity` and channel-group divisor by layer name. -/
structure DepEnv where
  sparsity : String → Frac
  groupDep : String → ℕ

/-- Lines 252-258: group the metrics by channel-dependency set, keeping only
layers present in `metrics` (`for name in names if name in metrics`) and
dropping empty groups. -/
def depGroupedMetrics (channelDepSets : List (List String))
    (metrics : List (String × List ℤ)) : List (List (String × List ℤ)) :=
  (channelDepSets.map (fun names =>
    names.filterMap (fun n => (metrics.lookup n).map (fun m => (n, m))))).filter
    (fun grp => 0 < grp.length)

/-- Lines 259-292 for one grouped dependency set: shared structural mask,
then the per-layer second pass against the same shared mask. -/
def depGroupMasks (env : DepEnv) (grp : List (String × List ℤ)) :
    Option (List (String × List ℤ)) :=
  (sumMetrics (grp.map Prod.snd)).bind (fun gm =>
    (minSparsity (grp.map (fun p => env.sparsity p.1))).bind (fun minS =>
      (depGroupMask gm minS (lcmReduce (grp.map (fun p => env.groupDep p.1)))).bind
        (fun gmask =>
          grp.mapM (fun p =>
            (depSecondPassMask p.2 gmask (env.sparsity p.1)).map
              (fun m => (p.1, m))))))

/-- `Conv2dDependencyAwareAllocator.generate_sparsity` (lines 248-292),
continuous-mask off. -/
def depGenerate (env : DepEnv) (channelDepSets : List (List String))
    (metrics : List (String × List ℤ)) : Option (List (String × List ℤ)) :=
  ((depGroupedMetrics channelDepSets metrics).mapM (depGroupMasks env)).map
    List.flatten

/-- `NormalSparsityAllocator.generate_sparsity` over the wrapped module list
(lines 22-42), continuous-mask off; `Except.error` models the
`assert name in metrics` failure (line 27) and torch runtime errors; an
error aborts the whole loop, so no partial mask dict is returned. -/
def normalGenerate : List (String × Frac) → List (String × List ℤ) →
    Except String (List (String × List ℤ))
  | [], _ => Except.ok []
  | nm :: ms, metrics =>
    match metrics.lookup nm.1 with
    | none => Except.error ("Metric of " ++ nm.1 ++ " is not calculated.")
    | some metric =>
      match normalLayerMask metric nm.2 with
      | none => Except.error "empty tensor reduction"
      | some mask =>
        match normalGenerate ms metrics with
        | Except.error e => Except.error e
        | Except.ok rest => Except.ok ((nm.1, mask) :: rest)

section DepLemmas

theorem segSlice_length {xs : List ℤ} {start len : ℕ}
    (h : start + len ≤ xs.length) : (segSlice xs start len).length = len := by
  unfold segSlice
  rw [List.length_take, List.length_drop]
  omega

theorem segMask1_length {seg : List ℤ} {pruned step : ℕ} {m : List ℤ}
    (hseg : seg.length = step) (h : segMask1 seg pruned step = some m) :
    m.length = step := by
  unfold segMask1 at h
  by_cases hp : 0 < pruned
  · rw [if_pos hp] at h
    rcases Option.map_eq_some'.mp h with ⟨t, _, hm⟩
    rw [← hm, gtMask_length]
    exact hseg
  · rw [if_neg hp] at h
    cases h
    exact List.length_replicate _ _

theorem segMasks_spec {gm : List ℤ} {pruned step : ℕ} :
    ∀ {count start : ℕ} {mask : List ℤ},
    (start + count) * step ≤ gm.length →
    segMasks gm pruned step start count = some mask →
    mask.length = count * step ∧
    ∀ j, j < count →
      segMask1 (segSlice gm ((start + j) * step) step) pruned step =
        some (segSlice mask (j * step) step) := by
  intro count
  induction count with
  | zero =>
    intro start mask _ h
    unfold segMasks at h
    cases h
    exact ⟨by simp, fun j hj => absurd hj (by omega)⟩
  | succ n ih =>
    intro start mask hb h
    unfold segMasks at h
    cases hm1 : segMask1 (segSlice gm (start * step) step) pruned step with
    | none => rw [hm1] at h; exact absurd h (by simp)
    | some m =>
      cases hrest : segMasks gm pruned step (start + 1) n with
      | none => rw [hm1, hrest] at h; exact absurd h (by simp)
      | some rest =>
        rw [hm1, hrest] at h
        cases h
        have hseglen : (segSlice gm (start * step) step).length = step :=
          segSlice_length (by nlinarith)
        have hmlen : m.length = step := segMask1_length hseglen hm1
        have hb' : (start + 1 + n) * step ≤ gm.length := by nlinarith
        obtain ⟨hrl, hrj⟩ := ih hb' hrest
        constructor
        · rw [List.length_append, hmlen, hrl]
          ring
        · intro j hj
          cases j with
          | zero =>
            have hslice : segSlice (m ++ rest) 0 step = m := by
              unfold segSlice
              rw [List.drop_zero, ← hmlen, List.take_left]
            rw [Nat.zero_mul, hslice]
            simpa using hm1
          | succ i =>
            have hslice : segSlice (m ++ rest) ((i + 1) * step) step =
                segSlice rest (i * step) step := by
              unfold segSlice
              have : (i + 1) * step = m.length + i * step := by
                rw [hmlen]; ring
              rw [this, List.drop_append]
            rw [hslice]
            have := hrj i (by omega)
            have hidx : (start + (i + 1)) * step = (start + 1 + i) * step := by
              ring
            rw [hidx]
            exact this

theorem mapM_option_forall2 {α β : Type} {f : α → Option β} :
    ∀ {xs : List α} {ys : List β}, xs.mapM f = some ys →
    List.Forall₂ (fun x y => f x = some y) xs ys := by
  intro xs
  induction xs with
  | nil =>
    intro ys h
    simp only [List.mapM_nil, Option.pure_def, Option.some.injEq] at h
    rw [← h]
    exact List.Forall₂.nil
  | cons x xs ih =>
    intro ys h
    rw [List.mapM_cons] at h
    cases hx : f x with
    | none => rw [hx] at h; exact absurd h (by simp)
    | some y =>
      rw [hx] at h
      cases hxs : xs.mapM f with
      | none => rw [hxs] at h; exact absurd h (by simp)
      | some ys' =>
        rw [hxs] at h
        simp at h
        rw [← h]
        exact List.Forall₂.cons hx (ih hxs)

theorem segMasks_zero_allones {gm : List ℤ} {step : ℕ} :
    ∀ {count start : ℕ} {mask : List ℤ},
    segMasks gm 0 step start count = some mask →
    mask = List.replicate (count * step) 1 := by
  intro count
  induction count with
  | zero =>
    intro start mask h
    unfold segMasks at h
    cases h
    simp
  | succ n ih =>
    intro start mask h
    unfold segMasks at h
    cases hm1 : segMask1 (segSlice gm (start * step) step) 0 step with
    | none => rw [hm1] at h; exact absurd h (by simp)
    | some m =>
      cases hrest : segMasks gm 0 step (start + 1) n with
      | none => rw [hm1, hrest] at h; exact absurd h (by simp)
      | some rest =>
        rw [hm1, hrest] at h
        cases h
        unfold segMask1 at hm1
        rw [if_neg (by omega)] at hm1
        cases hm1
        rw [ih hrest]
        rw [← List.replicate_add]
        congr 1
        ring

theorem lookup_eq_some_mem {ps : List (String × List ℤ)} {n : String}
    {v : List ℤ} (h : ps.lookup n = some v) : (n, v) ∈ ps := by
  induction ps with
  | nil => simp [List.lookup] at h
  | cons p ps ih =>
    obtain ⟨k, w⟩ := p
    rw [List.lookup_cons] at h
    cases hk : (n == k) with
    | true =>
      rw [hk] at h
      simp only [Option.some.injEq] at h
      have hn : n = k := eq_of_beq hk
      rw [hn, ← h]
      exact List.mem_cons_self _ _
    | false =>
      rw [hk] at h
      exact List.mem_cons_of_mem _ (ih h)

/-- **C4.** Dependency-aware structural pass: when the summed group metric's
length is divisible by the lcm of the members' channel-group divisors, the
shared structural mask partitions into `lcm` contiguous segments of length
`numel / lcm`; each segment is all-ones when
`int(numel / lcm * min_sparsity) = 0` and otherwise thresholds at the
largest of that many smallest summed-metric entries (so at least that many
elements — including the smallest ones — are pruned); and every member's
second pass runs against the one shared mask, so the structural pattern is
identical across the dependency set. -/
theorem dep_structural_spec (env : DepEnv) (grp out : List (String × List ℤ))
    (gm : List ℤ) (minS : Frac) (maxG step k : ℕ)
    (hgm : sumMetrics (grp.map Prod.snd) = some gm)
    (hmin : minSparsity (grp.map (fun p => env.sparsity p.1)) = some minS)
    (hmaxG : maxG = lcmReduce (grp.map (fun p => env.groupDep p.1)))
    (hstep : step = gm.length / maxG)
    (hk : k = depPrunedPerGroup gm.length maxG minS)
    (hdvd : maxG ∣ gm.length) (hmg : 0 < maxG)
    (hout : depGroupMasks env grp = some out) :
    ∃ gmask, depGroupMask gm minS maxG = some gmask ∧
      gmask.length = gm.length ∧
      k = gm.length / maxG * minS.num / minS.den ∧
      (∀ j, j < maxG →
        (k = 0 → segSlice gmask (j * step) step = List.replicate step 1) ∧
        (0 < k → ∃ t, topkSmallMax (segSlice gm (j * step) step) k = some t ∧
          segSlice gmask (j * step) step = gtMask (segSlice gm (j * step) step) t ∧
          k ≤ countZeros (segSlice gmask (j * step) step))) ∧
      List.Forall₂ (fun p q => q.1 = p.1 ∧
        depSecondPassMask p.2 gmask (env.sparsity p.1) = some q.2) grp out := by
  unfold depGroupMasks at hout
  rw [hgm, Option.some_bind, hmin, Option.some_bind, ← hmaxG] at hout
  cases hgmask : depGroupMask gm minS maxG with
  | none => rw [hgmask, Option.none_bind] at hout; exact absurd hout (by simp)
  | some gmask =>
    rw [hgmask, Option.some_bind] at hout
    have hlen_eq : maxG * step = gm.length := by
      rw [hstep]
      exact Nat.mul_div_cancel' hdvd
    have hbound : (0 + maxG) * step ≤ gm.length := by
      rw [Nat.zero_add]
      omega
    have hseg := segMasks_spec hbound
      (by rw [← hgmask]; unfold depGroupMask; rw [← hstep, ← hk])
    obtain ⟨hlen, hsegj⟩ := hseg
    refine ⟨gmask, rfl, by omega, ?_, ?_, ?_⟩
    · rw [hk]
      unfold depPrunedPerGroup
      obtain ⟨st, hst⟩ := hdvd
      rw [hst, Nat.mul_div_cancel_left st hmg]
      rw [show maxG * st * minS.num = maxG * (st * minS.num) by ring]
      rw [Nat.mul_div_mul_left _ _ hmg]
    · intro j hj
      have hj' := hsegj j hj
      rw [Nat.zero_add] at hj'
      constructor
      · intro hk0
        unfold segMask1 at hj'
        rw [if_neg (by omega)] at hj'
        exact (Option.some.inj hj').symm
      · intro hkpos
        unfold segMask1 at hj'
        rw [if_pos hkpos] at hj'
        rcases Option.map_eq_some'.mp hj' with ⟨t, ht, hmask_eq⟩
        refine ⟨t, ht, hmask_eq.symm, ?_⟩
        rw [hmask_eq.symm, countZeros_gtMask]
        exact countP_le_thr_ge ht
    · exact List.Forall₂.imp (fun p q hpq => by
        rcases Option.map_eq_some'.mp hpq with ⟨m, hm, hq⟩
        exact ⟨by rw [← hq], by rw [← hq]; exact hm⟩)
        (mapM_option_forall2 hout)

end DepLemmas

/-- Environment for the C4 witness group: layer `x` has sparsity 1/2 and
channel-group divisor 2, layer `y` sparsity 3/4 and divisor 1. -/
def depWitnessEnv : DepEnv :=
  ⟨fun n => if n = "x" then ⟨1, 2⟩ else ⟨3, 4⟩,
   fun n => if n = "x" then 2 else 1⟩

/-- Witness for C4 at a two-member dependency set: summed metric `[2,3,4,5]`,
min sparsity 1/2, lcm of divisors 2, two segments of length 2 pruning one
element each; both members are re-thresholded against the same shared mask. -/
theorem dep_structural_spec_witness :
    ∃ gmask, depGroupMask [2, 3, 4, 5] ⟨1, 2⟩ 2 = some gmask ∧
      gmask.length = ([2, 3, 4, 5] : List ℤ).length ∧
      1 = ([2, 3, 4, 5] : List ℤ).length / 2 * (⟨1, 2⟩ : Frac).num /
        (⟨1, 2⟩ : Frac).den ∧
      (∀ j, j < 2 →
        (1 = 0 → segSlice gmask (j * 2) 2 = List.replicate 2 1) ∧
        (0 < 1 → ∃ t, topkSmallMax (segSlice [2, 3, 4, 5] (j * 2) 2) 1 = some t ∧
          segSlice gmask (j * 2) 2 = gtMask (segSlice [2, 3, 4, 5] (j * 2) 2) t ∧
          1 ≤ countZeros (segSlice gmask (j * 2) 2))) ∧
      List.Forall₂ (fun p q => q.1 = p.1 ∧
        depSecondPassMask p.2 gmask (depWitnessEnv.sparsity p.1) = some q.2)
        [("x", [1, 2, 3, 4]), ("y", [1, 1, 1, 1])]
        [("x", [0, 1, 0, 1]), ("y", [0, 0, 0, 0])] :=
  dep_structural_spec depWitnessEnv
    [("x", [1, 2, 3, 4]), ("y", [1, 1, 1, 1])]
    [("x", [0, 1, 0, 1]), ("y", [0, 0, 0, 0])]
    [2, 3, 4, 5] ⟨1, 2⟩ 2 2 1
    (by decide) (by decide) (by decide) (by decide) (by decide) (by decide)
    (by decide) (by decide)

/-- **C5.** Continuous-mask monotonicity, for the Normal/Block layer loop
(lines 30-41) and for the Conv2dDependencyAwareAllocator member path (lines
254-256 with 283-291): under continuous-mask mode, the stored metric is
multiplied in place by the binarized previous mask — forcing already-pruned
positions to the minimal metric value 0 before re-ranking — and the produced
weight mask is re-multiplied by the previous mask, so a position pruned in
round n (previous mask 0) is pruned again in round n+1, for any
non-decreasing pair of sparsity targets. -/
theorem continuous_mask_monotone :
    (∀ (prevMask metric : List ℤ) (sPrev sNext : Frac) (mask2 metric1 : List ℤ),
      prevMask.length = metric.length →
      sPrev.num * sNext.den ≤ sNext.num * sPrev.den →
      normalLayerCall true prevMask metric sNext = some (mask2, metric1) →
      ∀ i, i < prevMask.length → prevMask.getD i 1 = 0 →
        metric1.getD i 1 = 0 ∧ mask2.getD i 1 = 0) ∧
    (∀ (prevMask metric groupMask : List ℤ) (sPrev sNext : Frac)
        (mask2 metric1 : List ℤ),
      prevMask.length = metric.length →
      groupMask.length = metric.length →
      sPrev.num * sNext.den ≤ sNext.num * sPrev.den →
      depLayerCall true prevMask metric groupMask sNext = some (mask2, metric1) →
      ∀ i, i < prevMask.length → prevMask.getD i 1 = 0 →
        metric1.getD i 1 = 0 ∧ mask2.getD i 1 = 0) := by
  constructor
  · intro prevMask metric sPrev sNext mask2 metric1 hlen hmono hcall i hi hzero
    unfold normalLayerCall at hcall
    simp only [if_pos] at hcall
    rcases Option.map_eq_some'.mp hcall with ⟨mask, hmask, heq⟩
    have hm1 : metric1 = List.zipWith (· * ·) metric (binarize prevMask) :=
      (congrArg Prod.snd heq).symm
    have hm2 : mask2 = List.zipWith (· * ·) mask prevMask :=
      (congrArg Prod.fst heq).symm
    have hmetric1 : metric1.getD i 1 = 0 := by
      rw [hm1]
      exact zipWith_mul_getD_zero (by omega) (by rw [binarize_length]; exact hi)
        (binarize_getD_zero hi hzero)
    refine ⟨hmetric1, ?_⟩
    -- the produced mask has the length of the multiplied metric
    rcases Option.map_eq_some'.mp hmask with ⟨t, _, hgt⟩
    have hmlen : mask.length = prevMask.length := by
      rw [← hgt, gtMask_length, List.length_zipWith, binarize_length]
      omega
    rw [hm2]
    exact zipWith_mul_getD_zero (by omega) hi hzero
  · intro prevMask metric groupMask sPrev sNext mask2 metric1 hlen hglen hmono
      hcall i hi hzero
    unfold depLayerCall at hcall
    simp only [if_pos] at hcall
    rcases Option.map_eq_some'.mp hcall with ⟨mask, hmask, heq⟩
    have hm1 : metric1 = List.zipWith (· * ·) metric (binarize prevMask) :=
      (congrArg Prod.snd heq).symm
    have hm2 : mask2 = List.zipWith (· * ·) mask prevMask :=
      (congrArg Prod.fst heq).symm
    have hmetric1 : metric1.getD i 1 = 0 := by
      rw [hm1]
      exact zipWith_mul_getD_zero (by omega) (by rw [binarize_length]; exact hi)
        (binarize_getD_zero hi hzero)
    refine ⟨hmetric1, ?_⟩
    -- the second-pass mask has the length of the group-masked metric
    unfold depSecondPassMask at hmask
    rcases Option.map_eq_some'.mp hmask with ⟨t, _, hgt⟩
    have hmlen : mask.length = prevMask.length := by
      rw [← hgt, gtMask_length, List.length_zipWith, List.length_zipWith,
        binarize_length]
      omega
    rw [hm2]
    exact zipWith_mul_getD_zero (by omega) hi hzero

/-- Witness for C5 at a concrete pair of rounds for both allocators:
previous mask `[0,1,1,1]`, metric `[5,6,7,8]`, sparsity rising from 1/4 to
1/2 (shared structural mask `[1,1,0,1]` for the dependency-aware member);
position 0 stays pruned and its re-ranked metric is forced to 0. -/
theorem continuous_mask_monotone_witness :
    ((List.zipWith (· * ·) [5, 6, 7, 8] (binarize [0, 1, 1, 1])).getD 0 1 = 0 ∧
      List.getD ([0, 0, 1, 1] : List ℤ) 0 1 = 0) ∧
    ((List.zipWith (· * ·) [5, 6, 7, 8] (binarize [0, 1, 1, 1])).getD 0 1 = 0 ∧
      List.getD ([0, 1, 0, 1] : List ℤ) 0 1 = 0) ∧
    normalLayerCall true [0, 1, 1, 1] [5, 6, 7, 8] ⟨1, 2⟩ =
      some ([0, 0, 1, 1], List.zipWith (· * ·) [5, 6, 7, 8] (binarize [0, 1, 1, 1])) ∧
    depLayerCall true [0, 1, 1, 1] [5, 6, 7, 8] [1, 1, 0, 1] ⟨1, 2⟩ =
      some ([0, 1, 0, 1], List.zipWith (· * ·) [5, 6, 7, 8] (binarize [0, 1, 1, 1])) :=
  ⟨continuous_mask_monotone.1 [0, 1, 1, 1] [5, 6, 7, 8] ⟨1, 4⟩ ⟨1, 2⟩
      [0, 0, 1, 1] (List.zipWith (· * ·) [5, 6, 7, 8] (binarize [0, 1, 1, 1]))
      (by decide) (by decide) (by decide) 0 (by decide) (by decide),
   continuous_mask_monotone.2 [0, 1, 1, 1] [5, 6, 7, 8] [1, 1, 0, 1] ⟨1, 4⟩ ⟨1, 2⟩
      [0, 1, 0, 1] (List.zipWith (· * ·) [5, 6, 7, 8] (binarize [0, 1, 1, 1]))
      (by decide) (by decide) (by decide) (by decide) 0 (by decide) (by decide),
   by decide, by decide⟩

theorem normalLayerMask_zero_prune {metric : List ℤ} {s : Frac}
    (hne : metric ≠ []) (hk : pruneNum s metric.length = 0) :
    normalLayerMask metric s = some (List.replicate metric.length 1) := by
  obtain ⟨mn, hmn⟩ := int_min?_isSome hne
  unfold normalLayerMask normalThreshold
  rw [hk, if_pos rfl, hmn]
  simp only [Option.map_some']
  congr 1
  apply List.eq_replicate_iff.mpr
  refine ⟨gtMask_length _ _, ?_⟩
  intro b hb
  obtain ⟨x, hx, hbx⟩ := List.mem_map.mp hb
  have := (int_min?_spec hmn).2 x hx
  rw [← hbx, if_pos (by omega)]

/-- **C6 (amended).** Zero-prune-count degenerate case: the Normal/Block
layer path (sentinel `metric.min() - 1`), the Global allocator's zero group
budget (sentinel below the pool minimum) and the dependency-aware structural
segment loop all produce all-ones masks without error; the dependency-aware
per-layer second pass (lines 286-287), however, has no zero guard and raises
on its empty top-k reduction — see the counterexample. -/
theorem zero_prune_allones :
    (∀ (metric : List ℤ) (s : Frac), metric ≠ [] →
      pruneNum s metric.length = 0 →
      normalLayerMask metric s = some (List.replicate metric.length 1)) ∧
    (∀ (layers : List GLayer) (ts : Frac) (masks : List (List ℤ)),
      globalGenerate layers ts = some masks →
      pruneNum ts ((layers.map (fun l => l.metric.length)).sum) = 0 →
      ∀ i, i < layers.length →
        masks.getD i [] =
          List.replicate ((layers.getD i defaultGLayer).metric.length) 1) ∧
    (∀ (gm mask : List ℤ) (minS : Frac) (maxG : ℕ),
      depGroupMask gm minS maxG = some mask →
      depPrunedPerGroup gm.length maxG minS = 0 →
      mask = List.replicate (maxG * (gm.length / maxG)) 1) := by
  refine ⟨?_, ?_, ?_⟩
  · intro metric s hne hk
    exact normalLayerMask_zero_prune hne hk
  · intro layers ts masks h h0 i hi
    exact global_zero_budget_allones h h0 hi
  · intro gm mask minS maxG hmask hk0
    unfold depGroupMask at hmask
    rw [hk0] at hmask
    have h := segMasks_zero_allones hmask
    rw [h]

/-- **C6 counterexample.** The dependency-aware per-layer second pass with a
computed prune count of zero: `torch.topk(metric, 0)[0].max()` reduces an
empty selection and raises (modelled `none`) instead of producing an
all-ones mask. -/
theorem dep_second_pass_zero_cex :
    pruneNum ⟨1, 4⟩ (List.zipWith (· * ·) [1, 2] [1, 1] : List ℤ).length = 0 ∧
    depSecondPassMask [1, 2] [1, 1] ⟨1, 4⟩ = none := by decide

/-- Witness for the amended C6: both guarded zero-prune paths at concrete
inputs. -/
theorem zero_prune_allones_witness :
    normalLayerMask [3, 1, 2] ⟨1, 4⟩ =
      some (List.replicate ([3, 1, 2] : List ℤ).length 1) ∧
    List.getD [[(1 : ℤ), 1]] 0 [] =
      List.replicate ((List.getD [(⟨[7, 9], ⟨1, 1⟩⟩ : GLayer)] 0
        defaultGLayer).metric.length) 1 ∧
    ([1, 1, 1, 1] : List ℤ) =
      List.replicate (2 * (([5, 6, 7, 8] : List ℤ).length / 2)) 1 :=
  ⟨zero_prune_allones.1 [3, 1, 2] ⟨1, 4⟩ (by decide) (by decide),
   zero_prune_allones.2.1 [⟨[7, 9], ⟨1, 1⟩⟩] ⟨0, 1⟩ [[1, 1]]
     (by decide) (by decide) 0 (by decide),
   zero_prune_allones.2.2 [5, 6, 7, 8] [1, 1, 1, 1] ⟨1, 8⟩ 2 (by decide) (by decide)⟩

/-- **C7 (amended).** A layer with no metric entry: the Normal/Block
allocator fails its `assert` immediately — the whole call returns an error,
no partial mask set — while the Dependency-Aware allocator silently skips
such layers: a name absent from the metrics mapping never reaches any
grouped dependency set, so it simply gets no mask and no error is raised
(see the counterexample). -/
theorem missing_metric_spec :
    (∀ (modules : List (String × Frac)) (metrics : List (String × List ℤ))
        (nm : String × Frac), nm ∈ modules → metrics.lookup nm.1 = none →
      ∃ e, normalGenerate modules metrics = Except.error e) ∧
    (∀ (sets : List (List String)) (metrics : List (String × List ℤ))
        (name : String), (∀ p ∈ metrics, p.1 ≠ name) →
      ∀ grp ∈ depGroupedMetrics sets metrics, ∀ q ∈ grp, q.1 ≠ name) := by
  constructor
  · intro modules
    induction modules with
    | nil =>
      intro metrics nm hmem _
      exact absurd hmem (by simp)
    | cons m ms ih =>
      intro metrics nm hmem hmiss
      unfold normalGenerate
      cases hlm : metrics.lookup m.1 with
      | none =>
        exact ⟨_, rfl⟩
      | some metric =>
        cases hnlm : normalLayerMask metric m.2 with
        | none =>
          simp only [hnlm]
          exact ⟨_, rfl⟩
        | some mask =>
          simp only [hnlm]
          have hm_ne : nm ≠ m := by
            intro heq
            rw [heq] at hmiss
            rw [hmiss] at hlm
            exact absurd hlm (by simp)
          have hnm_ms : nm ∈ ms := by
            cases List.mem_cons.mp hmem with
            | inl h => exact absurd h hm_ne
            | inr h => exact h
          obtain ⟨e, he⟩ := ih metrics nm hnm_ms hmiss
          refine ⟨e, ?_⟩
          rw [he]

  · intro sets metrics name hmiss grp hgrp q hq
    unfold depGroupedMetrics at hgrp
    have hgrp' := (List.mem_filter.mp hgrp).1
    obtain ⟨names, hnames, hgrp_eq⟩ := List.mem_map.mp hgrp'
    rw [← hgrp_eq] at hq
    obtain ⟨n, hn, hfn⟩ := List.mem_filterMap.mp hq
    rcases Option.map_eq_some'.mp hfn with ⟨mval, hml, hqeq⟩
    have hmem : (n, mval) ∈ metrics := lookup_eq_some_mem hml
    have hne := hmiss (n, mval) hmem
    rw [← hqeq]
    exact hne

/-- **C7 counterexample.** The Dependency-Aware allocator does not raise
when a layer of a dependency set (`"a"`) has no metric entry: the call
completes, producing masks only for the present layers and silently skipping
`"a"`. -/
theorem dep_missing_metric_cex :
    depGenerate ⟨fun _ => ⟨1, 2⟩, fun _ => 2⟩ [["a", "b"]] [("b", [1, 2, 3, 4])] =
      some [("b", [0, 1, 0, 1])] ∧
    List.lookup "a" [("b", ([0, 1, 0, 1] : List ℤ))] = none := by decide

/-- Witness for the amended C7: the Normal allocator errors on a module with
no metric entry; a metric-less layer appears in no grouped dependency set. -/
theorem missing_metric_spec_witness :
    (∃ e, normalGenerate [("a", ⟨1, 2⟩)] [] = Except.error e) ∧
    (∀ grp ∈ depGroupedMetrics [["a", "b"]] [("b", [1, 2])],
      ∀ q ∈ grp, q.1 ≠ "a") :=
  ⟨missing_metric_spec.1 [("a", ⟨1, 2⟩)] [] ("a", ⟨1, 2⟩) (by decide) (by decide),
   missing_metric_spec.2 [["a", "b"]] [("b", [1, 2])] "a" (by decide)⟩

/-! ## Block compress/expand (`BlockSparsityAllocator._compress_mask` /
`_expand_mask`, lines 72-164)

Modelled for a 2-D weight of shape `r × c` with `dim is None` and
`block_sparse_size = [br, bc]`.  Masks are total functions `ℕ → ℕ → ℤ`
(binary values), read only at in-bounds indices.
`F.avg_pool2d(..., ceil_mode=True, count_include_pad=False)` averages each
`br × bc` block over its in-bounds entries; `Tensor.resize_(weight_size)`
keeps the first `r*c` entries of the row-major flattening of the expanded
(`⌈r/br⌉·br × ⌈c/bc⌉·bc`) tensor — it reinterprets storage, it does not crop
per dimension. -/

/-- Output extent of the ceil-mode pooling along one axis. -/
def blockCells (n b : ℕ) : ℕ := ceilDivNat n b

/-- In-bounds indices of block `i` along an axis of extent `n`. -/
def blockIdx (n b i : ℕ) : Finset ℕ := Finset.Ico (i * b) (min ((i + 1) * b) n)

/-- The average-pool value of block `(i, j)` (average over valid entries
only, matching `count_include_pad=False`). -/
def blockAvg (mask : ℕ → ℕ → ℤ) (r c br bc i j : ℕ) : ℚ :=
  (∑ x ∈ blockIdx r br i, ∑ y ∈ blockIdx c bc j, (mask x y : ℚ)) /
    (((blockIdx r br i).card : ℚ) * ((blockIdx c bc j).card : ℚ))

/-- `_compress_mask` (lines 90-112) for a 2-D mask with `dim is None`:
`avg_pool2d` then re-binarise with `(mask != 0)`. -/
def compressMask (mask : ℕ → ℕ → ℤ) (r c br bc : ℕ) : ℕ → ℕ → ℤ :=
  fun i j => if blockAvg mask r c br bc i j = 0 then 0 else 1

/-- The `unsqueeze/expand/reshape` tiling of `_expand_mask` (lines 130-138):
each reduced cell repeats over a `br × bc` tile. -/
def expandTile (red : ℕ → ℕ → ℤ) (br bc : ℕ) : ℕ → ℕ → ℤ :=
  fun x y => red (x / br) (y / bc)

/-- `weight_mask.resize_(weight_size)` (line 144): position `(p, q)` of the
result reads flat position `p*c + q` of the row-major storage of a `_ × C`
tensor. -/
def resizeFlat (t : ℕ → ℕ → ℤ) (C c : ℕ) : ℕ → ℕ → ℤ :=
  fun p q => t ((p * c + q) / C) ((p * c + q) % C)

/-- `_expand_mask` (lines 114-148) for a 2-D mask with `dim is None`: tile,
then resize to the weight shape. -/
def expandMask (red : ℕ → ℕ → ℤ) (r c br bc : ℕ) : ℕ → ℕ → ℤ :=
  resizeFlat (expandTile red br bc) (blockCells c bc * bc) c

section BlockLemmas

theorem blockIdx_card_pos {n b i : ℕ} (hb : 0 < b) (hi : i * b < n) :
    0 < (blockIdx n b i).card := by
  unfold blockIdx
  rw [Nat.card_Ico]
  have h : (i + 1) * b = i * b + b := by ring
  omega

/-- The binarised pooled cell is the indicator of a non-zero block sum. -/
theorem compressMask_eq_indicator (mask : ℕ → ℕ → ℤ) (r c br bc i j : ℕ)
    (hbr : 0 < br) (hbc : 0 < bc) (hi : i * br < r) (hj : j * bc < c) :
    compressMask mask r c br bc i j =
      (if (∑ x ∈ blockIdx r br i, ∑ y ∈ blockIdx c bc j, mask x y) = 0
       then 0 else 1) := by
  unfold compressMask blockAvg
  have hci : 0 < (blockIdx r br i).card := blockIdx_card_pos hbr hi
  have hcj : 0 < (blockIdx c bc j).card := blockIdx_card_pos hbc hj
  have hden : (((blockIdx r br i).card : ℚ) * ((blockIdx c bc j).card : ℚ)) ≠ 0 := by
    positivity
  have hsum : (∑ x ∈ blockIdx r br i, ∑ y ∈ blockIdx c bc j, (mask x y : ℚ)) =
      ((∑ x ∈ blockIdx r br i, ∑ y ∈ blockIdx c bc j, mask x y : ℤ) : ℚ) := by
    push_cast
    rfl
  by_cases h0 : (∑ x ∈ blockIdx r br i, ∑ y ∈ blockIdx c bc j, mask x y) = 0
  · have hq : (∑ x ∈ blockIdx r br i, ∑ y ∈ blockIdx c bc j, (mask x y : ℚ)) /
        (((blockIdx r br i).card : ℚ) * ((blockIdx c bc j).card : ℚ)) = 0 := by
      rw [hsum, h0]
      simp
    rw [if_pos hq, if_pos h0]
  · have hq : ¬ ((∑ x ∈ blockIdx r br i, ∑ y ∈ blockIdx c bc j, (mask x y : ℚ)) /
        (((blockIdx r br i).card : ℚ) * ((blockIdx c bc j).card : ℚ)) = 0) := by
      intro heq
      rcases div_eq_zero_iff.mp heq with hz | hz
      · rw [hsum] at hz
        exact h0 (by exact_mod_cast hz)
      · exact hden hz
    rw [if_neg hq, if_neg h0]

theorem cell_index_bound {n b i : ℕ} (hb : 0 < b) (hi : i < ceilDivNat n b) :
    i * b < n := by
  have h := ceilDivNat_mul_lt (x := n) hb
  have h1 : (i + 1) * b ≤ ceilDivNat n b * b :=
    Nat.mul_le_mul_right b hi
  have h2 : (i + 1) * b = i * b + b := by
    rw [Nat.succ_mul]
  have h3 : ceilDivNat n b * b = b * ceilDivNat n b := Nat.mul_comm _ _
  omega

theorem flat_div_lt {flat C R : ℕ} (hC : 0 < C) (hflat : flat < R * C) :
    flat / C < R :=
  (Nat.div_lt_iff_lt_mul hC).mpr hflat

theorem ceilDivNat_mul_of_dvd {n b : ℕ} (hb : 0 < b) (hd : b ∣ n) :
    ceilDivNat n b * b = n := by
  obtain ⟨q, hq⟩ := hd
  subst hq
  unfold ceilDivNat
  have h1 : b * q + b - 1 = (b - 1) + b * q := by omega
  rw [h1, Nat.add_mul_div_left _ _ hb, Nat.div_eq_of_lt (by omega)]
  rw [Nat.zero_add, Nat.mul_comm]

end BlockLemmas

/-- **C9 (amended).** Block compress/expand round-trip: expanding the
compression of an all-ones mask gives an all-ones mask of the weight shape,
for every positive 2-D shape and block size; and compressing then expanding a
block-uniform binary mask reproduces it whenever the block size divides the
weight shape.  (Without divisibility the `resize_` flat-storage truncation
scrambles the tiled rows and idempotence fails — see the counterexample.) -/
theorem block_compress_expand_roundtrip :
    (∀ r c br bc : ℕ, 0 < br → 0 < bc →
      ∀ p q : ℕ, p < r → q < c →
        expandMask (compressMask (fun _ _ => 1) r c br bc) r c br bc p q = 1) ∧
    (∀ (mask : ℕ → ℕ → ℤ) (r c br bc : ℕ), 0 < br → 0 < bc →
      br ∣ r → bc ∣ c →
      (∀ x, x < r → ∀ y, y < c → mask x y = mask (x / br * br) (y / bc * bc)) →
      (∀ x, x < r → ∀ y, y < c → mask x y = 0 ∨ mask x y = 1) →
      ∀ p q : ℕ, p < r → q < c →
        expandMask (compressMask mask r c br bc) r c br bc p q = mask p q) := by
  constructor
  · intro r c br bc hbr hbc p q hp hq
    simp only [expandMask, resizeFlat, expandTile]
    have hc : 0 < c := by omega
    have hcell : 0 < blockCells c bc := Nat.div_pos (by omega) hbc
    have hC : 0 < blockCells c bc * bc := Nat.mul_pos hcell hbc
    have hcC : c ≤ blockCells c bc * bc := by
      have h := le_ceilDivNat_mul (x := c) hbc
      rw [Nat.mul_comm] at h
      exact h
    have hrR : r ≤ blockCells r br * br := by
      have h := le_ceilDivNat_mul (x := r) hbr
      rw [Nat.mul_comm] at h
      exact h
    have hflat : p * c + q < r * c := by
      have h1 : (p + 1) * c = p * c + c := by ring
      have h2 : (p + 1) * c ≤ r * c := Nat.mul_le_mul_right c (by omega)
      omega
    have hflatRC : p * c + q < blockCells r br * br * (blockCells c bc * bc) :=
      lt_of_lt_of_le hflat (Nat.mul_le_mul hrR hcC)
    set i := (p * c + q) / (blockCells c bc * bc) / br with hidef
    set j := (p * c + q) % (blockCells c bc * bc) / bc with hjdef
    have hrow : (p * c + q) / (blockCells c bc * bc) < blockCells r br * br :=
      flat_div_lt hC hflatRC
    have hi : i < blockCells r br := by
      rw [hidef, Nat.div_lt_iff_lt_mul hbr]
      exact hrow
    have hibr : i * br < r := cell_index_bound hbr hi
    have hcol : (p * c + q) % (blockCells c bc * bc) < blockCells c bc * bc :=
      Nat.mod_lt _ hC
    have hj : j < blockCells c bc := by
      rw [hjdef, Nat.div_lt_iff_lt_mul hbc]
      exact hcol
    have hjbc : j * bc < c := cell_index_bound hbc hj
    rw [compressMask_eq_indicator _ r c br bc i j hbr hbc hibr hjbc]
    rw [if_neg]
    intro hzero
    have hones : (∑ x ∈ blockIdx r br i, ∑ y ∈ blockIdx c bc j, (1 : ℤ)) =
        ((blockIdx r br i).card : ℤ) * ((blockIdx c bc j).card : ℤ) := by
      simp [Finset.sum_const, mul_comm]
    rw [hones] at hzero
    have hci := blockIdx_card_pos hbr hibr
    have hcj := blockIdx_card_pos hbc hjbc
    have hne : ((blockIdx r br i).card : ℤ) * ((blockIdx c bc j).card : ℤ) ≠ 0 := by
      positivity
    exact hne hzero
  · intro mask r c br bc hbr hbc hdr hdc hbu hval p q hp hq
    have hc : 0 < c := by omega
    have hCc : blockCells c bc * bc = c := ceilDivNat_mul_of_dvd hbc hdc
    simp only [expandMask, resizeFlat, expandTile, hCc]
    have hdiv : (p * c + q) / c = p := by
      rw [Nat.add_comm, Nat.add_mul_div_right _ _ hc, Nat.div_eq_of_lt hq]
      omega
    have hmod : (p * c + q) % c = q := by
      rw [Nat.add_comm, Nat.add_mul_mod_self_right]
      exact Nat.mod_eq_of_lt hq
    rw [hdiv, hmod]
    have hple : p / br * br ≤ p := Nat.div_mul_le_self p br
    have hqle : q / bc * bc ≤ q := Nat.div_mul_le_self q bc
    rw [compressMask_eq_indicator mask r c br bc (p / br) (q / bc) hbr hbc
      (by omega) (by omega)]
    -- the whole block carries the value of `mask p q`
    obtain ⟨mr, hmr⟩ := hdr
    obtain ⟨mc, hmc⟩ := hdc
    have hiub : (p / br + 1) * br ≤ r := by
      have hplt : p / br < mr := by
        rw [Nat.div_lt_iff_lt_mul hbr, Nat.mul_comm mr br, ← hmr]
        exact hp
      calc (p / br + 1) * br ≤ mr * br := Nat.mul_le_mul_right br (by omega)
        _ = br * mr := Nat.mul_comm _ _
        _ = r := hmr.symm
    have hjub : (q / bc + 1) * bc ≤ c := by
      have hqlt : q / bc < mc := by
        rw [Nat.div_lt_iff_lt_mul hbc, Nat.mul_comm mc bc, ← hmc]
        exact hq
      calc (q / bc + 1) * bc ≤ mc * bc := Nat.mul_le_mul_right bc (by omega)
        _ = bc * mc := Nat.mul_comm _ _
        _ = c := hmc.symm
    have hblock_const : ∀ x ∈ blockIdx r br (p / br), ∀ y ∈ blockIdx c bc (q / bc),
        mask x y = mask p q := by
      intro x hx y hy
      unfold blockIdx at hx hy
      rw [Finset.mem_Ico] at hx hy
      have hxr : x < r := lt_of_lt_of_le hx.2 (min_le_right _ _)
      have hyc : y < c := lt_of_lt_of_le hy.2 (min_le_right _ _)
      have hxdiv : x / br = p / br :=
        Nat.div_eq_of_lt_le hx.1 (lt_of_lt_of_le hx.2 (min_le_left _ _))
      have hydiv : y / bc = q / bc :=
        Nat.div_eq_of_lt_le hy.1 (lt_of_lt_of_le hy.2 (min_le_left _ _))
      rw [hbu x hxr y hyc, hxdiv, hydiv, ← hbu p hp q hq]
    have hsum : (∑ x ∈ blockIdx r br (p / br), ∑ y ∈ blockIdx c bc (q / bc), mask x y)
        = (((blockIdx r br (p / br)).card * (blockIdx c bc (q / bc)).card : ℕ) : ℤ) *
          mask p q := by
      rw [Finset.sum_congr rfl
        (fun x hx => Finset.sum_congr rfl (fun y hy => hblock_const x hx y hy))]
      simp [Finset.sum_const, mul_assoc]
    rw [hsum]
    have hci := blockIdx_card_pos hbr (show p / br * br < r by omega)
    have hcj := blockIdx_card_pos hbc (show q / bc * bc < c by omega)
    rcases hval p hp q hq with h0 | h1
    · rw [h0, mul_zero, if_pos rfl]
    · have hne : ¬ ((((blockIdx r br (p / br)).card *
          (blockIdx c bc (q / bc)).card : ℕ) : ℤ) = 0) := by
        have hcc : ((blockIdx r br (p / br)).card *
            (blockIdx c bc (q / bc)).card : ℕ) ≠ 0 := by positivity
        exact_mod_cast hcc
      rw [h1, mul_one, if_neg hne]

/-- The counterexample mask for C9: 2×3 weight, blocks 1×2; block-uniform
(per row, column blocks `{0,1}` and `{2}`), with a pruned top-right block. -/
def maskCE : ℕ → ℕ → ℤ := fun i j => if i = 0 ∧ j = 2 then 0 else 1

/-- **C9 counterexample.** On a non-divisible shape the compress-then-expand
round trip does not reproduce a block-uniform mask: `resize_` reads the first
6 storage entries of the tiled 2×4 tensor, so position (1,0) of the result
picks up tile entry (0,3) — the pruned top-right block — although
`maskCE 1 0 = 1`. -/
theorem block_roundtrip_cex :
    (∀ x, x < 2 → ∀ y, y < 3 → maskCE x y = maskCE (x / 1 * 1) (y / 2 * 2)) ∧
    (∀ x, x < 2 → ∀ y, y < 3 → maskCE x y = 0 ∨ maskCE x y = 1) ∧
    expandMask (compressMask maskCE 2 3 1 2) 2 3 1 2 1 0 = 0 ∧
    maskCE 1 0 = 1 := by
  refine ⟨by decide, by decide, ?_, by decide⟩
  show compressMask maskCE 2 3 1 2 0 1 = 0
  rw [compressMask_eq_indicator maskCE 2 3 1 2 0 1 (by decide) (by decide)
    (by decide) (by decide)]
  have hz : (∑ x ∈ blockIdx 2 1 0, ∑ y ∈ blockIdx 3 2 1, maskCE x y) = 0 := by
    decide
  rw [if_pos hz]

/-- The witness mask for the divisible-shape idempotence: 2×4 weight, blocks
1×2, first column-block kept, second pruned. -/
def maskW : ℕ → ℕ → ℤ := fun _ j => if j < 2 then 1 else 0

/-- Witness for the amended C9: an all-ones round trip on a non-divisible
3×3 shape with 2×2 blocks, and idempotence of a block-uniform mask on a
divisible 2×4 shape with 1×2 blocks. -/
theorem block_roundtrip_witness :
    (∀ p q : ℕ, p < 3 → q < 3 →
      expandMask (compressMask (fun _ _ => 1) 3 3 2 2) 3 3 2 2 p q = 1) ∧
    (∀ p q : ℕ, p < 2 → q < 4 →
      expandMask (compressMask maskW 2 4 1 2) 2 4 1 2 p q = maskW p q) :=
  ⟨fun p q hp hq =>
    block_compress_expand_roundtrip.1 3 3 2 2 (by decide) (by decide) p q hp hq,
   fun p q hp hq =>
    block_compress_expand_roundtrip.2 maskW 2 4 1 2 (by decide) (by decide)
      (by decide) (by decide) (by decide) (by decide) p q hp hq⟩

end SparsityAlloc
